import Mathlib

/-!
Verification development for the Money_keeper personal-ledger program.

The C++ core is shallowly embedded: `double` is modelled as `ℚ`,
`std::string` as `List Char`, `std::vector` and `std::map` as lists
(association lists for maps, keys unique), and functions that throw
exceptions return `Except`/`Option`.  Mutexes are ignored (the embedding is
functional); where locking itself is a finding it is noted in comments.
-/

namespace MoneyKeeper

/-- C++ `std::string`, modelled as its character list. -/
abbrev Str := List Char

/-! ### Date (src/core/Date.hpp) -/

/-- `Date`: a year/month/day triple (fields are C++ `int`). -/
structure Date where
  year : Int
  month : Int
  day : Int
deriving DecidableEq, Repr

/-- `Date::is_leap_year` (Date.hpp:53-56). -/
def Date.is_leap_year (d : Date) : Bool :=
  (d.year % 4 == 0 && d.year % 100 != 0) || (d.year % 400 == 0)

/-- The `days_in_month` table used by `Date::is_valid` (Date.hpp:85). -/
def days_in_month : List Int := [31, 28, 31, 30, 31, 30, 31, 31, 30, 31, 30, 31]

/-- `Date::is_valid` (Date.hpp:81-94). -/
def Date.is_valid (d : Date) : Bool :=
  if d.year < 2000 || d.year > 2100 then false
  else if d.month < 1 || d.month > 12 then false
  else
    let max_days : Int :=
      if d.month == 2 && d.is_leap_year then 29
      else (days_in_month.getD (d.month - 1).toNat 0)
    decide (1 ≤ d.day) && decide (d.day ≤ max_days)

/-- `Date::operator==` (Date.hpp:237-240).  Transcribed verbatim from the
source: the third conjunct compares `month` a second time, so the `day`
field is never consulted. -/
def Date.cppEq (a b : Date) : Bool :=
  a.year == b.year && a.month == b.month && a.month == b.month

/-! ### Transaction (src/core/Time_Manager.hpp) -/

/-- `Transaction::Type` (Time_Manager.hpp:57-60): `INCOME = 0`, `EXPENSE = 1`. -/
inductive TxType where
  | income
  | expense
deriving DecidableEq, Repr

/-- `static_cast<int>(type)` as used by serialization. -/
def typeCode : TxType → Int
  | .income => 0
  | .expense => 1

/-- `static_cast<Transaction::Type>(n)` as used by deserialization
(File_Manager.cpp:170); the stored codes are 0 and 1. -/
def typeOfCode (n : Int) : TxType :=
  if n == 0 then .income else .expense

/-- `MAX_TAGS` (Time_Manager.hpp:305). -/
def MAX_TAGS : Nat := 5

/-- `Transaction` (Time_Manager.hpp:50-328).  Field defaults mirror the
in-class member initializers (`currency_ = "RUB"`, empty tag list). -/
structure Transaction where
  id : Int
  amount : ℚ
  category : Str
  type : TxType
  date : Date
  description : Str
  currency_ : Str := "RUB".toList
  tags_ : List Str := []
deriving DecidableEq, Repr

/-- `Transaction::get_signed_amount` (Time_Manager.hpp:124-126). -/
def Transaction.get_signed_amount (t : Transaction) : ℚ :=
  if t.type = .income then t.amount else -t.amount

/-- The two `std::runtime_error`s thrown by `Transaction::add_tag`. -/
inductive TagError where
  | tagLimitExceeded
  | duplicateTag
deriving DecidableEq, Repr

/-- The tag-list logic of `Transaction::add_tag` (Time_Manager.hpp:273-281):
limit check first, then duplicate check, then `push_back`. -/
def add_tag_list (tags : List Str) (tag : Str) : Except TagError (List Str) :=
  if MAX_TAGS ≤ tags.length then .error .tagLimitExceeded
  else if tag ∈ tags then .error .duplicateTag
  else .ok (tags ++ [tag])

/-- `Transaction::add_tag` (Time_Manager.hpp:273-281); a thrown exception
leaves the transaction untouched. -/
def Transaction.add_tag (t : Transaction) (tag : Str) : Except TagError Transaction :=
  match add_tag_list t.tags_ tag with
  | .ok l => .ok { t with tags_ := l }
  | .error e => .error e

/-- `Transaction::remove_tag` (Time_Manager.hpp:295-299): out-of-range index
is a no-op. -/
def Transaction.remove_tag (t : Transaction) (index : Nat) : Transaction :=
  if index < t.tags_.length then { t with tags_ := t.tags_.eraseIdx index }
  else t

/-- The three `std::invalid_argument`s thrown by `Transaction::validation`
(Time_Manager.hpp:323-327). -/
inductive ValidationError where
  | nonPositiveAmount
  | emptyCategory
  | invalidDate
deriving DecidableEq, Repr

/-- `Transaction::validation` (Time_Manager.hpp:323-327), with the check
order of the source. -/
def Transaction.validation (t : Transaction) : Option ValidationError :=
  if t.amount ≤ 0 then some .nonPositiveAmount
  else if t.category = [] then some .emptyCategory
  else if !t.date.is_valid then some .invalidDate
  else none

instance {α β : Type _} [DecidableEq α] [DecidableEq β] : DecidableEq (Except α β) := fun x y =>
  match x, y with
  | .ok a, .ok b =>
    if h : a = b then .isTrue (congrArg Except.ok h)
    else .isFalse (fun hc => h (Except.ok.inj hc))
  | .error a, .error b =>
    if h : a = b then .isTrue (congrArg Except.error h)
    else .isFalse (fun hc => h (Except.error.inj hc))
  | .ok _, .error _ => .isFalse (fun hc => Except.noConfusion hc)
  | .error _, .ok _ => .isFalse (fun hc => Except.noConfusion hc)

/-- Result of running the parameterised `Transaction` constructor against an
explicit id counter (the C++ `next_id` static, Time_Manager.hpp:307). -/
structure CtorResult where
  result : Except ValidationError Transaction
  next_id : Int
deriving DecidableEq, Repr

/-- The parameterised constructor `Transaction(amt, cat, t, d, desc)`
(Time_Manager.hpp:106-109).  The member-initializer list stores `next_id`
into `id` and increments the counter (`id(next_id++)`) before the body runs
`validation()`; hence the returned counter is `next_id + 1` whether or not
validation throws. -/
def mkTransaction (next_id : Int) (amt : ℚ) (cat : Str) (ty : TxType)
    (d : Date) (desc : Str) : CtorResult :=
  let t : Transaction :=
    { id := next_id, amount := amt, category := cat, type := ty,
      date := d, description := desc }
  { result :=
      match t.validation with
      | some e => .error e
      | none => .ok t,
    next_id := next_id + 1 }

/-! ### CurrencyConverter (src/core/currency/CurrencyConverter.cpp) -/

/-- The converter's `rates_` member: `std::unordered_map<std::string, double>`
as an association list with unique keys. -/
abbrev RatesMap := List (Str × ℚ)

/-- `unordered_map::at`-style lookup on a `RatesMap`. -/
def ratesAt (m : RatesMap) (k : Str) : Option ℚ :=
  match m with
  | [] => none
  | (n, r) :: rest => if n = k then some r else ratesAt rest k

/-- The exceptions thrown by `CurrencyConverter::convert`
(`std::runtime_error` for an empty table, `std::out_of_range` from `at`). -/
inductive ConvError where
  | ratesUnavailable
  | unknownCurrency
deriving DecidableEq, Repr

/-- `CurrencyConverter::convert` (CurrencyConverter.cpp:65-72): identical
codes short-circuit before any table access; an empty table throws; a
missing code throws; otherwise `amount * rate(from) / rate(to)`. -/
def convert (rates : RatesMap) (amount : ℚ) (src dst : Str) : Except ConvError ℚ :=
  if src = dst then .ok amount
  else if rates = [] then .error .ratesUnavailable
  else
    match ratesAt rates src, ratesAt rates dst with
    | some rf, some rt => .ok (amount * rf / rt)
    | _, _ => .error .unknownCurrency

/-- `Transaction::get_amount_in_rub` (Time_Manager.hpp:259-261): converts the
unsigned `amount` field (not the signed amount) into RUB. -/
def Transaction.get_amount_in_rub (t : Transaction) (rates : RatesMap) : Except ConvError ℚ :=
  convert rates t.amount t.currency_ "RUB".toList

/-! ### Account (src/core/Account.cpp) -/

/-- `Account` (Account.hpp:39-192); the mutex is dropped from the functional
model.  Defaults mirror `Account()` / `Account(name)`: zero balance, no
transactions. -/
structure Account where
  name : Str
  balance : ℚ := 0
  transactions : List Transaction := []
deriving DecidableEq, Repr

/-- The `std::invalid_argument` thrown by `Account::addTransaction` on an id
collision. -/
inductive DupError where
  | duplicateId
deriving DecidableEq, Repr

/-- `Account::addTransaction` (Account.cpp:36-47): duplicate-id check, then
`push_back`, then `balance += signed_amount` (the signed amount in the
transaction's own currency, without conversion). -/
def Account.addTransaction (a : Account) (t : Transaction) : Except DupError Account :=
  if a.transactions.any (fun ex => ex.id == t.id) then .error .duplicateId
  else .ok { a with
    transactions := a.transactions ++ [t],
    balance := a.balance + t.get_signed_amount }

/-- `std::vector::erase` of the first transaction whose id matches. -/
def eraseFirstId : List Transaction → Int → List Transaction
  | [], _ => []
  | t :: ts, i => if t.id == i then ts else t :: eraseFirstId ts i

/-- `Account::removeTransaction` (Account.cpp:62-74): find the first match,
subtract its signed amount from the balance, erase it; return whether a
removal happened. -/
def Account.removeTransaction (a : Account) (id : Int) : Bool × Account :=
  match a.transactions.find? (fun t => t.id == id) with
  | some t =>
    (true, { a with
      balance := a.balance - t.get_signed_amount,
      transactions := eraseFirstId a.transactions id })
  | none => (false, a)

/-- `Account::move_transactions_from` (Account.cpp:88-91): `balance` is copied
from `other` and the transaction vector is move-assigned (leaving `other`'s
vector empty).  `other.balance` is NOT reset by the source. -/
def Account.move_transactions_from (self other : Account) : Account × Account :=
  ({ self with balance := other.balance, transactions := other.transactions },
   { other with transactions := [] })

/-- The summation loop of `Account::recalculateBalance` / `Account::validate`:
left-to-right sum of `get_amount_in_rub` over the transactions, propagating
the first conversion exception. -/
def sumInRub (rates : RatesMap) : List Transaction → Except ConvError ℚ
  | [] => .ok 0
  | t :: ts =>
    match t.get_amount_in_rub rates with
    | .error e => .error e
    | .ok x =>
      match sumInRub rates ts with
      | .error e => .error e
      | .ok s => .ok (x + s)

/-- `Account::recalculateBalance` (Account.cpp:107-116): the balance is
recomputed as the sum of `get_amount_in_rub` over all transactions — note
this sums the UNSIGNED amounts, ignoring income/expense type.  A conversion
exception propagates, leaving the account unchanged (the write to `balance`
happens only after the loop). -/
def Account.recalculateBalance (a : Account) (rates : RatesMap) : Except ConvError Account :=
  match sumInRub rates a.transactions with
  | .ok s => .ok { a with balance := s }
  | .error e => .error e

/-- `Account::validate` (Account.cpp:126-135): the recomputed sum must agree
with the cached balance within 0.01. -/
def Account.validate (a : Account) (rates : RatesMap) : Except ConvError Bool :=
  match sumInRub rates a.transactions with
  | .ok s => .ok (decide (|s - a.balance| < 1/100))
  | .error e => .error e

/-- `Account::merge_account` (Account.cpp:174-184): `other`'s transactions are
move-inserted at the end of `self.transactions`, then `recalculateBalance`
runs on `self`.  `other.transactions` is never cleared: `make_move_iterator`
guts the elements but the vector keeps its size, so `other` retains its
element count (contradicting the function's own `@post`, Account.hpp:189).
The source also re-locks `transactions_mutex` inside `recalculateBalance`
while already holding it (self-deadlock); the functional model ignores
locks.  A conversion exception propagates after the insertion. -/
def Account.merge_account (self other : Account) (rates : RatesMap) :
    Except ConvError (Account × Account) :=
  let merged := { self with transactions := self.transactions ++ other.transactions }
  match merged.recalculateBalance rates with
  | .ok a2 => .ok (a2, other)
  | .error e => .error e

/-! ### FinanceCore account management (src/core/Menu_Handlers.cpp) -/

/-- The account map `std::map<std::string, Account>` as an association list
(unique keys), plus the active-account pointer modelled by name.  The menu's
numeric `choice` selects the `choice`-th entry of the map's iteration
order, here the list order. -/
structure FinanceCore where
  accounts : List (Str × Account)
  currentAccount : Str
deriving DecidableEq, Repr

/-- Association-list lookup on the account map (`std::map::find`/`at`). -/
def lookupA (m : List (Str × Account)) (k : Str) : Option Account :=
  match m with
  | [] => none
  | (n, a) :: rest => if n = k then some a else lookupA rest k

/-- The default account name (the literal `"Общий"` in the source). -/
def defaultName : Str := "Общий".toList

/-- `FinanceCore::deleteAccount` (Menu_Handlers.cpp:281-320; the older copy
FinanceCore.cpp:671-708 is structurally identical).  Refuses when
`accounts.size() <= 1`, on the cancel choice `0`, and on an out-of-range
choice; otherwise erases the selected entry, first re-pointing
`currentAccount` at `"Общий"` when the selected entry is the active one
(`accounts.at("Общий")` throws if that account is absent, aborting before
the erase — modelled as a no-op failure).  Returns whether a deletion
happened. -/
def FinanceCore.deleteAccount (fc : FinanceCore) (choice : Int) : Bool × FinanceCore :=
  if fc.accounts.length ≤ 1 then (false, fc)
  else if choice == 0 then (false, fc)
  else if choice < 1 || decide (fc.accounts.length < choice) then (false, fc)
  else
    match fc.accounts.get? (choice - 1).toNat with
    | none => (false, fc)
    | some (nm, _) =>
      if fc.currentAccount = nm then
        match lookupA fc.accounts defaultName with
        | none => (false, fc)
        | some _ =>
          (true, { accounts := fc.accounts.eraseIdx (choice - 1).toNat,
                   currentAccount := defaultName })
      else
        (true, { fc with accounts := fc.accounts.eraseIdx (choice - 1).toNat })

/-! ### Rate refresh (src/core/currency/CurrencyFetcher.cpp,
CurrencyConverter.cpp, and the FinanceCore glue) -/

/-- The outcome of the external HTTP fetch: `none` models transport failure,
`some m` a response whose parse produced the map `m`.
`CurrencyFetcher::fetch_rates` (CurrencyFetcher.cpp:39-55) hands its
callback the empty map on failure and the parsed map on success. -/
def fetchDelivered (outcome : Option RatesMap) : RatesMap :=
  outcome.getD []

/-- State touched by a rate refresh: the converter's in-memory `rates_`
table, the persisted cache file content (`none` when the file is absent),
and the registry's accounts. -/
structure RefreshState where
  rates : RatesMap
  cache : Option RatesMap
  accounts : List (Str × Account)
deriving DecidableEq, Repr

/-- `CurrencyConverter::save_rates_to_file` (CurrencyConverter.cpp:87-98):
writes the whole table to the cache file. -/
def save_rates_to_file (st : RefreshState) : RefreshState :=
  { st with cache := some st.rates }

/-- `CurrencyConverter::load_rates_from_file` (CurrencyConverter.cpp:111-129):
a missing/unparseable file returns `false` leaving `rates_` unchanged;
otherwise the table is replaced by the file's content. -/
def load_rates_from_file (st : RefreshState) : Bool × RefreshState :=
  match st.cache with
  | none => (false, st)
  | some c => (true, { st with rates := c })

/-- `Account::recalculateBalance` wrapped so that a conversion exception for
one account leaves that account unchanged. -/
def recalcOrKeep (a : Account) (rates : RatesMap) : Account :=
  match a.recalculateBalance rates with
  | .ok a2 => a2
  | .error _ => a

/-- `CurrencyConverter::update_rates` (CurrencyConverter.cpp:40-47): the
fetch callback unconditionally installs whatever map was delivered — also
the empty map on failure — and then invokes the completion callback once
with `!new_rates.empty()`.  Returns the new table and the success flag. -/
def update_rates (rates : RatesMap) (delivered : RatesMap) : RatesMap × Bool :=
  (delivered, !delivered.isEmpty)

/-- Modelled from the spec: `FinanceCore::update_currency_rates` is declared
(FinanceCore.hpp:226) and called (Menu_Handlers.cpp:80) but its definition
is absent from src.  Following §4.3 `refresh`: on success the table is
persisted to the cache and every account is told to `recalculate_balance`;
on failure the last persisted cache is loaded; in either branch the user
callback runs exactly once with the success flag.  The inner table swap and
the flag itself come from `CurrencyConverter::update_rates` (src), which
runs before this glue and replaces `rates_` with the delivered map even on
failure.  The returned list records each callback invocation. -/
def update_currency_rates (st : RefreshState) (outcome : Option RatesMap) :
    RefreshState × List Bool :=
  let delivered := fetchDelivered outcome
  let (newRates, success) := update_rates st.rates delivered
  let st1 := { st with rates := newRates }
  if success then
    let st2 := save_rates_to_file st1
    let st3 := { st2 with
      accounts := st2.accounts.map (fun p => (p.1, recalcOrKeep p.2 st2.rates)) }
    (st3, [success])
  else
    let (_, st2) := load_rates_from_file st1
    (st2, [success])

/-! ### Persistence codec (src/core/File_Manager.cpp)

The flat file is modelled as its list of lines (each a `Str`); consequently
the model presumes no field contains a newline, which the round-trip
theorem states as an explicit hypothesis. -/

/-- The whitespace set `" \t"` used by the source's trimming, and the space
skipping of `operator>>`/`std::stoi` on the saved forms. -/
def isSpaceTab (c : Char) : Bool := c == ' ' || c == '\t'

/-- `erase(0, find_first_not_of(" \t"))` followed by
`erase(find_last_not_of(" \t") + 1)` (File_Manager.cpp:182-183,189-190). -/
def trimWs (s : Str) : Str :=
  ((s.dropWhile isSpaceTab).reverse.dropWhile isSpaceTab).reverse

/-- Split on a delimiter, keeping empty segments (including a leading one and
one after a trailing delimiter).  `splitOnChar c s` is never `[]`. -/
def splitOnChar (c : Char) : List Char → List (List Char)
  | [] => [[]]
  | x :: xs =>
    match splitOnChar c xs with
    | [] => [[]]
    | f :: rest => if x = c then [] :: f :: rest else (x :: f) :: rest

/-- The `while (std::getline(stream, field, delim))` splitting idiom used for
fields (File_Manager.cpp:159-161) and tags (195-198): like `splitOnChar`
except that the empty string yields no fields and a trailing delimiter does
not produce a final empty field. -/
def cppGetlineSplit (c : Char) (s : Str) : List Str :=
  if s = [] then []
  else
    let parts := splitOnChar c s
    if s.getLast? = some c then parts.dropLast else parts

/-- `join_strings` (File_Manager.cpp:37-44). -/
def join_strings : List Str → Char → Str
  | [], _ => []
  | [f], _ => f
  | f :: fs, d => f ++ d :: join_strings fs d

/-- `starts_with` (File_Manager.cpp:52-55). -/
def starts_with : Str → Str → Bool
  | _, [] => true
  | [], _ :: _ => false
  | c :: cs, p :: ps => c == p && starts_with cs ps

/-- The decimal digit character for `n < 10`. -/
def digitOf (n : Nat) : Char := Char.ofNat (48 + n)

/-- Most-significant-first decimal digits of `n` (with enough fuel). -/
def natDigits : Nat → Nat → List Char
  | 0, _ => []
  | fuel + 1, n => if n = 0 then [] else natDigits fuel (n / 10) ++ [digitOf (n % 10)]

/-- Decimal text of a `Nat` (the `operator<<` form). -/
def showNat (n : Nat) : Str :=
  if n = 0 then ['0'] else natDigits (n + 1) n

/-- Decimal text of an `int` as printed by `operator<<`. -/
def showInt : Int → Str
  | .ofNat n => showNat n
  | .negSucc n => '-' :: showNat (n + 1)

/-- Is `c` one of `'0'..'9'`? -/
def isDigitCh (c : Char) : Bool :=
  decide (48 ≤ c.toNat) && decide (c.toNat ≤ 57)

/-- Numeric value of a digit character. -/
def digitVal (c : Char) : Nat := c.toNat - 48

/-- Accumulate a digit string into a number. -/
def parseNatCore (s : Str) : Nat :=
  s.foldl (fun acc c => 10 * acc + digitVal c) 0

/-- `std::istream >> int` / `std::stoi` on the saved forms: skip spaces, an
optional minus sign, then at least one digit; also returns the unconsumed
remainder.  A missing digit is the extraction-failure/throw case. -/
def readIntFrom (s : Str) : Option (Int × Str) :=
  let s1 := s.dropWhile isSpaceTab
  if s1.head? = some '-' then
    let ds := s1.tail.takeWhile isDigitCh
    if ds = [] then none
    else some (-(parseNatCore ds : Int), s1.tail.dropWhile isDigitCh)
  else
    let ds := s1.takeWhile isDigitCh
    if ds = [] then none
    else some ((parseNatCore ds : Int), s1.dropWhile isDigitCh)

/-- `std::stoi` (File_Manager.cpp:166,170): the parsed value. -/
def stoiModel (s : Str) : Option Int :=
  (readIntFrom s).map Prod.fst

/-- Magnitude part of `std::stod`: digits with an optional fraction part. -/
def stodMag (s : Str) : Option ℚ :=
  if (s.dropWhile isDigitCh).head? = some '.' then
    if s.takeWhile isDigitCh = [] ∧ (s.dropWhile isDigitCh).tail.takeWhile isDigitCh = []
    then none
    else some ((parseNatCore (s.takeWhile isDigitCh) : ℚ)
      + (parseNatCore ((s.dropWhile isDigitCh).tail.takeWhile isDigitCh) : ℚ)
        / (10 : ℚ) ^ ((s.dropWhile isDigitCh).tail.takeWhile isDigitCh).length)
  else if s.takeWhile isDigitCh = [] then none
  else some ((parseNatCore (s.takeWhile isDigitCh) : ℚ))

/-- `std::stod` (File_Manager.cpp:169) on the saved forms: optional spaces and
sign, then `digits[.digits]`; trailing junk is ignored. -/
def stodModel (s : Str) : Option ℚ :=
  let s1 := s.dropWhile isSpaceTab
  if s1.head? = some '-' then (stodMag s1.tail).map Neg.neg
  else stodMag s1

/-- Helper for `showAmount`: print `n` hundredths as the C++ default
`operator<<(double)` text, trimming trailing fraction zeros. -/
def showCents (n : Nat) : Str :=
  if n % 100 = 0 then showNat (n / 100)
  else if n % 10 = 0 then showNat (n / 100) ++ ['.', digitOf (n / 10 % 10)]
  else showNat (n / 100) ++ ['.', digitOf (n / 10 % 10), digitOf (n % 10)]

/-- `file << t.get_amount()` (File_Manager.cpp:86): default `ostream`
formatting of a `double` (6 significant digits).  Modelled exactly on the
regime the round-trip theorem quantifies over — `0 < q < 10^4` with at most
two decimals — where the C++ text is `d+` or `d+.d` or `d+.dd` and
coincides with this definition; outside that regime C++ may switch to a
lossy scientific form, which is why the theorem carries the hypothesis. -/
def showAmount (q : ℚ) : Str :=
  let cents := (q * 100).num
  if cents < 0 then '-' :: showCents cents.natAbs else showCents cents.natAbs

/-- `Date::operator<<` (Date.hpp:253-257): `"year month day"`. -/
def showDate (d : Date) : Str :=
  showInt d.year ++ ' ' :: showInt d.month ++ ' ' :: showInt d.day

/-- Date parsing during load (File_Manager.cpp:174-177): three `>>`-extracted
ints, then `Date(y, m, d)` which throws on an invalid date (a failed
extraction since C++11 leaves the int zero, and `Date(0,·,·)` is invalid,
so both failure modes are the skip case, modelled as `none`). -/
def parseDate (s : Str) : Option Date :=
  match readIntFrom s with
  | none => none
  | some (y, r1) =>
    match readIntFrom r1 with
    | none => none
    | some (m, r2) =>
      match readIntFrom r2 with
      | none => none
      | some (d, _) =>
        let dt : Date := { year := y, month := m, day := d }
        if dt.is_valid then some dt else none

/-- The tags field written by `saveData` (File_Manager.cpp:92): `"-"` when
there are no tags, else the `';'`-joined tags. -/
def tagsField (tags : List Str) : Str :=
  if tags = [] then ['-'] else join_strings tags ';'

/-- One transaction line as written by `FinanceCore::saveData`
(File_Manager.cpp:85-92): the eight `<<`-separated fields joined by `','`. -/
def serializeTx (t : Transaction) : Str :=
  join_strings
    [showInt t.id, showAmount t.amount, showInt (typeCode t.type), t.category,
     showDate t.date, t.currency_, t.description, tagsField t.tags_] ','

/-- The `[Account:<name>]` header line (File_Manager.cpp:83). -/
def headerLine (nm : Str) : Str :=
  "[Account:".toList ++ nm ++ [']']

/-- `FinanceCore::saveData` (File_Manager.cpp:75-96) as the list of lines it
writes: per account a header and then its transaction lines, in map
iteration order. -/
def saveLines (accs : List (Str × Account)) : List Str :=
  (accs.map (fun p => headerLine p.1 :: p.2.transactions.map serializeTx)).join

/-- Header-name extraction (File_Manager.cpp:141-144): the first `']'` of the
line; since this branch runs only when the line starts with `"[Account:"`
(whose nine characters contain no `']'`), this is the first `']'` after
position 9.  No `']'` means the line is skipped. -/
def extractHeaderName (line : Str) : Option Str :=
  let rest := line.drop 9
  if ']' ∈ rest then some (rest.takeWhile (fun c => !(c == ']'))) else none

/-- The tag-reading loop of `loadData` (File_Manager.cpp:193-199): each
nonempty `';'`-segment goes through `add_tag`; an `add_tag` exception makes
the whole record be skipped. -/
def addTagsLoop (tags : List Str) : List Str → Option (List Str)
  | [] => some tags
  | tg :: rest =>
    if tg = [] then addTagsLoop tags rest
    else
      match add_tag_list tags tg with
      | .ok l => addTagsLoop l rest
      | .error _ => none

/-- The per-record parsing of `loadData` (File_Manager.cpp:153-199): split on
`','`, require at least 6 fields, parse id/amount/type, take the category
verbatim, parse the date, trim the currency (defaulting to `"RUB"` when
blank), trim the description (defaulting to `"--"` when the field is
missing), read the tags.  Any throwing step yields `none` (record skipped). -/
def parseTxLine (line : Str) : Option Transaction :=
  let fields := cppGetlineSplit ',' line
  if fields.length < 6 then none
  else
    match stoiModel (fields.getD 0 []) with
    | none => none
    | some tid =>
      match stodModel (fields.getD 1 []) with
      | none => none
      | some amt =>
        match stoiModel (fields.getD 2 []) with
        | none => none
        | some tyn =>
          match parseDate (fields.getD 4 []) with
          | none => none
          | some dt =>
            let cur0 := trimWs (fields.getD 5 [])
            let cur := if cur0 = [] then "RUB".toList else cur0
            let desc := trimWs (if 6 < fields.length then fields.getD 6 [] else "--".toList)
            let tagsF := fields.getD 7 []
            match (if 7 < fields.length ∧ tagsF ≠ ['-'] then
                addTagsLoop [] (cppGetlineSplit ';' tagsF)
              else some []) with
            | none => none
            | some tgs =>
              some { id := tid, amount := amt, category := fields.getD 3 [],
                     type := typeOfCode tyn, date := dt, description := desc,
                     currency_ := cur, tags_ := tgs }

/-- The id observed by the `max_id` high-water update (File_Manager.cpp:166-167):
`t.id = std::stoi(fields[0])` runs right after the field-count check, so the
id can be observed even when a later step throws and the record is skipped. -/
def lineObservedId (line : Str) : Option Int :=
  let fields := cppGetlineSplit ',' line
  if fields.length < 6 then none else stoiModel (fields.getD 0 [])

/-- The running state of the `loadData` line loop.  `next_id` is the global
`Transaction::next_id` counter (each non-header line default-constructs a
`Transaction`, consuming one id before the final high-water reset). -/
structure LoadState where
  accounts : List (Str × Account)
  currentAccountName : Str
  max_id : Int
  next_id : Int
deriving DecidableEq, Repr

/-- `Account()` as default-inserted by `accounts[name]` (Account.hpp:67). -/
def defaultAccount : Account := { name := "Без названия".toList }

/-- `addTransaction` under the load loop's `try`: a duplicate-id exception
skips the record, leaving the account as it was. -/
def tryAddTx (a : Account) (t : Transaction) : Account :=
  match a.addTransaction t with
  | .ok a2 => a2
  | .error _ => a

/-- `accounts[currentAccountName].addTransaction(t)` (File_Manager.cpp:201):
`operator[]` default-inserts a missing entry first.  (A `std::map` keeps
its entries sorted by key; the model keeps insertion order, which none of
the stated properties depend on.) -/
def mapAddTx (m : List (Str × Account)) (nm : Str) (t : Transaction) : List (Str × Account) :=
  match m with
  | [] => [(nm, tryAddTx defaultAccount t)]
  | (k, a) :: rest =>
    if k = nm then (k, tryAddTx a t) :: rest
    else (k, a) :: mapAddTx rest nm t

/-- One iteration of the `loadData` line loop (File_Manager.cpp:137-207). -/
def loadLine (st : LoadState) (line : Str) : LoadState :=
  if line = [] then st
  else if starts_with line ("[Account:".toList) then
    match extractHeaderName line with
    | none => st
    | some nm =>
      let accounts2 :=
        match lookupA st.accounts nm with
        | some _ => st.accounts
        | none => st.accounts ++ [(nm, { name := nm })]
      { st with currentAccountName := nm, accounts := accounts2 }
  else
    let st1 := { st with next_id := st.next_id + 1 }
    let st2 := { st1 with
      max_id :=
        match lineObservedId line with
        | some i => if st1.max_id < i then i else st1.max_id
        | none => st1.max_id }
    match parseTxLine line with
    | none => st2
    | some t => { st2 with accounts := mapAddTx st2.accounts st2.currentAccountName t }

/-- The balance-recomputation loop at the end of `loadData`
(File_Manager.cpp:214-217).  A conversion exception escapes `loadData`; the
model reports it and (for the error case) returns the pre-recomputation
accounts — the loop never touches names or transaction lists either way. -/
def recalcLoop (rates : RatesMap) : List (Str × Account) → Except ConvError (List (Str × Account))
  | [] => .ok []
  | (n, a) :: rest =>
    match a.recalculateBalance rates with
    | .error e => .error e
    | .ok a2 =>
      match recalcLoop rates rest with
      | .error e => .error e
      | .ok r => .ok ((n, a2) :: r)

/-- Result of a full `loadData`. -/
structure LoadResult where
  accounts : List (Str × Account)
  next_id : Int
  recalcError : Option ConvError
deriving DecidableEq, Repr

/-- The initial state of `loadData` (File_Manager.cpp:115-135): the map is
cleared and re-seeded with the default `"Общий"` account, which is also the
current target. -/
def loadInit (next_id0 : Int) : LoadState :=
  { accounts := [(defaultName, { name := defaultName })],
    currentAccountName := defaultName,
    max_id := 0,
    next_id := next_id0 }

/-- `FinanceCore::loadData` (File_Manager.cpp:115-218) over a list of lines:
run the line loop, reset the id generator to `max_id + 1` when a positive
id was observed, then recompute every balance. -/
def loadData (lines : List Str) (next_id0 : Int) (rates : RatesMap) : LoadResult :=
  let st := lines.foldl loadLine (loadInit next_id0)
  let nid := if 0 < st.max_id then st.max_id + 1 else st.next_id
  match recalcLoop rates st.accounts with
  | .ok accs2 => { accounts := accs2, next_id := nid, recalcError := none }
  | .error e => { accounts := st.accounts, next_id := nid, recalcError := some e }

/-- The tuple named by the round-trip property:
`(id, amount, type, category, date, currency, description, tags)`. -/
def tupleOf (t : Transaction) : Int × ℚ × Int × Str × Date × Str × Str × List Str :=
  (t.id, t.amount, typeCode t.type, t.category, t.date, t.currency_, t.description, t.tags_)

/-! ### Operation sequences on an account (for the balance invariant) -/

/-- One element of a sequence of `add_transaction` / `remove_transaction`
calls on an account. -/
inductive AccOp where
  | add (t : Transaction)
  | remove (id : Int)
deriving DecidableEq, Repr

/-- Apply one operation; a duplicate-id exception from `addTransaction`
leaves the account unchanged (the caller catches it). -/
def applyOp (a : Account) : AccOp → Account
  | .add t =>
    match a.addTransaction t with
    | .ok a2 => a2
    | .error _ => a
  | .remove i => (a.removeTransaction i).2

/-- A whole operation sequence, run left to right. -/
def applyOps (a : Account) (ops : List AccOp) : Account :=
  ops.foldl applyOp a

/-- Sum of signed amounts (what the incremental balance tracks). -/
def sumSigned (ts : List Transaction) : ℚ :=
  (ts.map Transaction.get_signed_amount).sum

/-- An operation that only ever adds `INCOME` transactions denominated in
the reference currency RUB. -/
def opIncomeRub : AccOp → Prop
  | .add t => t.type = .income ∧ t.currency_ = "RUB".toList
  | .remove _ => True

instance : DecidablePred opIncomeRub := fun op => by
  cases op <;> simp only [opIncomeRub] <;> infer_instance

/-- The balance bookkeeping invariant maintained by the add/remove loop, plus
the restriction of the amended claim. -/
def balInv (a : Account) : Prop :=
  a.balance = sumSigned a.transactions ∧
  ∀ t ∈ a.transactions, t.type = .income ∧ t.currency_ = "RUB".toList

/-! ### Well-formedness hypotheses of the round-trip theorem -/

/-- Amounts on which the C++ default `double` formatting is lossless and
matches `showAmount`: positive, below `10^4`, at most two decimals (so at
most six significant digits). -/
def amountOk (q : ℚ) : Prop :=
  0 < q ∧ (q * 100).den = 1 ∧ q < 10000

instance : DecidablePred amountOk := fun q => by
  unfold amountOk; infer_instance

/-- A transaction the flat-file codec can round-trip: delimiter characters
(`','` between fields, `';'` between tags) and newlines must not occur
inside fields, the trimmed fields must already be trimmed, the date must be
valid, the id positive, the amount within the lossless printing regime, and
the tag list must be what `add_tag` can reproduce (≤ 5 distinct nonempty
tags, and not the single tag `"-"`, which collides with the no-tags
marker). -/
def wfTx (t : Transaction) : Prop :=
  0 < t.id ∧
  amountOk t.amount ∧
  ',' ∉ t.category ∧ '\n' ∉ t.category ∧
  t.date.is_valid = true ∧
  t.currency_ ≠ [] ∧ ',' ∉ t.currency_ ∧ '\n' ∉ t.currency_ ∧
  trimWs t.currency_ = t.currency_ ∧
  ',' ∉ t.description ∧ '\n' ∉ t.description ∧
  trimWs t.description = t.description ∧
  (∀ tg ∈ t.tags_, tg ≠ [] ∧ ',' ∉ tg ∧ ';' ∉ tg ∧ '\n' ∉ tg) ∧
  t.tags_.length ≤ MAX_TAGS ∧ t.tags_.Nodup ∧ t.tags_ ≠ [['-']]

instance : DecidablePred wfTx := fun t => by
  unfold wfTx; infer_instance

/-- An account entry the codec can round-trip: nonempty name without `']'`
or newline, well-formed transactions, per-account unique ids. -/
def wfEntry (p : Str × Account) : Prop :=
  p.1 ≠ [] ∧ ']' ∉ p.1 ∧ '\n' ∉ p.1 ∧
  (∀ t ∈ p.2.transactions, wfTx t) ∧
  (p.2.transactions.map Transaction.id).Nodup

instance : DecidablePred wfEntry := fun p => by
  unfold wfEntry; infer_instance

/-- A registry the codec can round-trip: distinct names, each entry
well-formed. -/
def wfRegistry (regs : List (Str × Account)) : Prop :=
  (regs.map Prod.fst).Nodup ∧ ∀ p ∈ regs, wfEntry p

instance : DecidablePred wfRegistry := fun regs => by
  unfold wfRegistry; infer_instance

/-- Replace the value stored under a key (the effect of mutating
`accounts[k]` when `k` is present). -/
def mapReplace (m : List (Str × Account)) (nm : Str) (a' : Account) : List (Str × Account) :=
  match m with
  | [] => []
  | (k, a) :: rest =>
    if k = nm then (k, a') :: rest else (k, a) :: mapReplace rest nm a'

/-- The running maximum computed by the `max_id` updates. -/
def foldMax (m : Int) (is_ : List Int) : Int :=
  is_.foldl (fun acc i => if acc < i then i else acc) m

/-- All transaction ids of a registry, in save order. -/
def regIds (regs : List (Str × Account)) : List Int :=
  (regs.map (fun p => p.2.transactions.map Transaction.id)).join

/-- The loader state produced by one account block of the save file: the
account is (re)inserted with its recomputed running balance and its parsed
transactions, the current-account pointer moves to it, and the id counters
advance over the block's transactions. -/
def blockResult (nm : Str) (a : Account) (st : LoadState) : LoadState :=
  { accounts := mapReplace
      (match lookupA st.accounts nm with
       | some _ => st.accounts
       | none => st.accounts ++ [(nm, { name := nm })]) nm
      { name := nm, balance := sumSigned a.transactions, transactions := a.transactions }
    currentAccountName := nm
    max_id := foldMax st.max_id (a.transactions.map Transaction.id)
    next_id := st.next_id + a.transactions.length }

/-! ### Concrete sample data for counterexamples and witnesses -/

/-- A table holding only the reference currency. -/
def rubOnly : RatesMap := [("RUB".toList, 1)]

/-- The table of the spec's scenario 4: `{RUB: 1, USD: 90}`. -/
def rubUsd : RatesMap := [("RUB".toList, 1), ("USD".toList, 90)]

/-- A 100-RUB income transaction. -/
def txRub100 : Transaction :=
  { id := 1, amount := 100, category := "Pay".toList, type := .income,
    date := ⟨2023, 5, 15⟩, description := [] }

/-- The same transaction denominated in USD. -/
def txUsd100 : Transaction := { txRub100 with currency_ := "USD".toList }

/-- An account holding one 100-RUB income transaction. -/
def accB : Account := { name := "B".toList, balance := 100, transactions := [txRub100] }

/-- A transaction whose description contains the field delimiter `','`. -/
def txComma : Transaction :=
  { id := 1, amount := 5, category := "Pay".toList, type := .income,
    date := ⟨2023, 5, 15⟩, description := "a,b".toList }

/-- A one-account registry holding `txComma`. -/
def regComma : List (Str × Account) :=
  [("B".toList, { name := "B".toList, balance := 5, transactions := [txComma] })]

/-- A one-account registry holding `txRub100` (for the round-trip witness). -/
def regB : List (Str × Account) := [("B".toList, accB)]

/-! ## Theorems -/

/-- C10: Date equality does not depend on the day field: `Date::operator==`
decides agreement on (year, month) only, so any two valid dates with equal
year and equal month compare equal even when their days differ. -/
theorem C10_date_eq_ignores_day (a b : Date) :
    Date.cppEq a b = (a.year == b.year && a.month == b.month) ∧
    (a.is_valid = true → b.is_valid = true → a.year = b.year → a.month = b.month →
      Date.cppEq a b = true) := by
  constructor
  · unfold Date.cppEq
    cases h1 : (a.year == b.year) <;> cases h2 : (a.month == b.month) <;> simp [h1, h2]
  · intro _ _ hy hm
    unfold Date.cppEq
    simp [hy, hm]

/-- C10 witness: 2023-05-15 and 2023-05-20 differ in the day yet compare
equal under `Date::operator==`. -/
theorem C10_witness :
    Date.cppEq ⟨2023, 5, 15⟩ ⟨2023, 5, 20⟩ = true :=
  (C10_date_eq_ignores_day ⟨2023, 5, 15⟩ ⟨2023, 5, 20⟩).2 (by decide) (by decide) rfl rfl

/-- C9: adding a tag to a transaction already holding 5 tags fails with the
tag-limit error, adding an already-present tag fails with the duplicate
error, and in both failure cases nothing is modified (the error result
carries no updated transaction); otherwise the tag is appended at the end,
preserving insertion order. -/
theorem C9_tag_limits (t : Transaction) (tag : Str) :
    (MAX_TAGS ≤ t.tags_.length → t.add_tag tag = .error .tagLimitExceeded) ∧
    (t.tags_.length < MAX_TAGS → tag ∈ t.tags_ → t.add_tag tag = .error .duplicateTag) ∧
    (t.tags_.length < MAX_TAGS → tag ∉ t.tags_ →
      t.add_tag tag = .ok { t with tags_ := t.tags_ ++ [tag] }) := by
  refine ⟨fun h1 => ?_, fun h1 h2 => ?_, fun h1 h2 => ?_⟩
  · simp [Transaction.add_tag, add_tag_list, h1]
  · simp [Transaction.add_tag, add_tag_list, h2, Nat.not_le.mpr h1]
  · simp [Transaction.add_tag, add_tag_list, h2, Nat.not_le.mpr h1]

/-- C9 witness: a transaction with five tags rejects a sixth. -/
theorem C9_witness :
    Transaction.add_tag
      { id := 1, amount := 1, category := "c".toList, type := .income,
        date := ⟨2023, 5, 15⟩, description := [],
        tags_ := ["a".toList, "b".toList, "c".toList, "d".toList, "e".toList] }
      ("f".toList) = .error .tagLimitExceeded :=
  (C9_tag_limits _ _).1 (by decide)

/-- C3: `convert(amount, from, to)` returns `amount` unchanged when
`from == to` even on an empty table; otherwise it fails on an empty table,
fails when either code is missing, and otherwise returns
`amount * rate(from) / rate(to)`; with the table `{RUB: 1, USD: 90}`,
`convert(100, "USD", "RUB") = 9000`. -/
theorem C3_convert (rates : RatesMap) (amount : ℚ) (src dst : Str) :
    (src = dst → convert rates amount src dst = .ok amount) ∧
    (src ≠ dst → rates = [] → convert rates amount src dst = .error .ratesUnavailable) ∧
    (src ≠ dst → rates ≠ [] →
      (ratesAt rates src = none ∨ ratesAt rates dst = none) →
      convert rates amount src dst = .error .unknownCurrency) ∧
    (∀ rf rt, src ≠ dst → rates ≠ [] →
      ratesAt rates src = some rf → ratesAt rates dst = some rt →
      convert rates amount src dst = .ok (amount * rf / rt)) ∧
    convert [("RUB".toList, 1), ("USD".toList, 90)] 100 ("USD".toList) ("RUB".toList)
      = .ok 9000 := by
  refine ⟨fun h => ?_, fun h1 h2 => ?_, fun h1 h2 h3 => ?_, fun rf rt h1 h2 h3 h4 => ?_,
    by simp [convert, ratesAt]; norm_num⟩
  · simp [convert, h]
  · simp [convert, h1, h2]
  · rcases h3 with h3 | h3
    · simp [convert, h1, h2, h3]
    · simp only [convert, if_neg h1, if_neg h2, h3]
      cases hf : ratesAt rates src <;> simp [hf]
  · simp [convert, h1, h2, h3, h4]

/-- C3 witness: identical source and target currencies short-circuit even on
the empty table. -/
theorem C3_witness :
    convert [] 5 ("USD".toList) ("USD".toList) = .ok 5 :=
  (C3_convert [] 5 ("USD".toList) ("USD".toList)).1 rfl

/-- C7: with exactly one account, `deleteAccount` refuses (whatever the menu
choice) and returns the registry unchanged — still exactly one account —
and a deletion can only ever succeed when at least two accounts exist. -/
theorem C7_last_account (fc : FinanceCore) (choice : Int) :
    (fc.accounts.length = 1 → fc.deleteAccount choice = (false, fc)) ∧
    ((fc.deleteAccount choice).1 = true → 2 ≤ fc.accounts.length) := by
  constructor
  · intro h
    have h1 : fc.accounts.length ≤ 1 := le_of_eq h
    simp [FinanceCore.deleteAccount, h1]
  · intro h
    by_cases h1 : fc.accounts.length ≤ 1
    · simp [FinanceCore.deleteAccount, h1] at h
    · omega

/-- C7 witness: a registry holding only the default account refuses the
deletion and still holds exactly one account. -/
theorem C7_witness :
    FinanceCore.deleteAccount
        { accounts := [(defaultName, { name := defaultName })],
          currentAccount := defaultName } 1
      = (false, { accounts := [(defaultName, { name := defaultName })],
                  currentAccount := defaultName }) :=
  (C7_last_account _ 1).1 (by decide)

/-- C5 counterexample: constructing with amount 0 fails validation, yet the
id counter has moved from 1 to 2 — the id was consumed, so the next
successful construction receives id 2, not the id 1 it would have received
had the failed construction never been attempted. -/
theorem C5_counterexample :
    (mkTransaction 1 0 ("Food".toList) .income ⟨2023, 5, 15⟩ []).result
      = .error .nonPositiveAmount ∧
    (mkTransaction 1 0 ("Food".toList) .income ⟨2023, 5, 15⟩ []).next_id = 2 ∧
    (2 : Int) ≠ 1 := by
  refine ⟨?_, rfl, by norm_num⟩
  simp [mkTransaction, Transaction.validation]

/-- C5: construction with a non-positive amount, empty category or invalid
date fails with a validation error — but the id counter advances to
`next_id + 1` on every construction attempt, failed or not; a valid
construction succeeds and carries the id the counter held. -/
theorem C5_validation (nid : Int) (amt : ℚ) (cat : Str) (ty : TxType) (d : Date) (desc : Str) :
    ((amt ≤ 0 ∨ cat = [] ∨ d.is_valid = false) →
      ∃ e, (mkTransaction nid amt cat ty d desc).result = .error e) ∧
    (mkTransaction nid amt cat ty d desc).next_id = nid + 1 ∧
    (0 < amt → cat ≠ [] → d.is_valid = true →
      (mkTransaction nid amt cat ty d desc).result =
        .ok { id := nid, amount := amt, category := cat, type := ty, date := d,
              description := desc }) := by
  refine ⟨fun h => ?_, rfl, fun h1 h2 h3 => ?_⟩
  · simp only [mkTransaction, Transaction.validation]
    split_ifs with hx hy hz
    · exact ⟨_, rfl⟩
    · exact ⟨_, rfl⟩
    · exact ⟨_, rfl⟩
    · rcases h with h | h | h
      · exact absurd h hx
      · exact absurd h hy
      · rw [h] at hz; simp at hz
  · simp [mkTransaction, Transaction.validation, not_le.mpr h1, h2, h3]

/-- C5 witness: instantiating the validation theorem at a zero amount. -/
theorem C5_witness :
    ∃ e, (mkTransaction 7 0 ("Food".toList) .income ⟨2023, 5, 15⟩ []).result = .error e :=
  (C5_validation 7 0 ("Food".toList) .income ⟨2023, 5, 15⟩ []).1 (Or.inl (le_refl 0))

/-- C8 counterexample: after `move_transactions_from`, the source account has
zero transactions but its `balance` member still holds its old value 100 —
it is not reset to zero as the claim states. -/
theorem C8_counterexample :
    (Account.move_transactions_from { name := "New".toList } accB).2.balance = 100 ∧
    ((100 : ℚ) ≠ 0) ∧
    (Account.move_transactions_from { name := "New".toList } accB).2.transactions = [] := by
  refine ⟨rfl, by norm_num, rfl⟩

/-- C8: `move_transactions_from(other)` gives `self` exactly `other`'s
transactions (replacing any of its own) and `other`'s balance; `other` is
left a valid account with zero transactions — but its `balance` field is
left untouched, not zeroed. -/
theorem C8_move (self other : Account) :
    (Account.move_transactions_from self other).1.transactions = other.transactions ∧
    (Account.move_transactions_from self other).1.balance = other.balance ∧
    (Account.move_transactions_from self other).1.name = self.name ∧
    (Account.move_transactions_from self other).2.transactions = [] ∧
    (Account.move_transactions_from self other).2.balance = other.balance ∧
    (Account.move_transactions_from self other).2.name = other.name :=
  ⟨rfl, rfl, rfl, rfl, rfl, rfl⟩

/-- C4 counterexample: with a non-empty in-memory table and no persisted
cache, a failed fetch ends with the empty table installed — the failure
branch does replace the table (the swap in `update_rates` runs before any
cache fallback could), contrary to the claim. -/
theorem C4_counterexample :
    (update_currency_rates
        { rates := [("USD".toList, 90)], cache := none, accounts := [] } none).1.rates = [] ∧
    ([] : RatesMap) ≠ [("USD".toList, 90)] ∧
    (update_currency_rates
        { rates := [("USD".toList, 90)], cache := none, accounts := [] } none).2 = [false] := by
  refine ⟨rfl, by simp, rfl⟩

/-- C4 (amended): the completion callback runs exactly once with the success
flag (the delivered table being non-empty); on failure the in-memory table
is first replaced by the empty delivered table and then the persisted cache
— when one exists — is loaded over it (no cache leaves the table empty),
with accounts untouched; on success the table is replaced by the fetched
one, persisted to the cache, and every account is recalculated. -/
theorem C4_refresh (st : RefreshState) (outcome : Option RatesMap) :
    (update_currency_rates st outcome).2 = [!(fetchDelivered outcome).isEmpty] ∧
    (fetchDelivered outcome = [] →
      (update_currency_rates st outcome).1 =
        { st with rates := match st.cache with | some c => c | none => [] }) ∧
    (fetchDelivered outcome ≠ [] →
      (update_currency_rates st outcome).1 =
        { rates := fetchDelivered outcome, cache := some (fetchDelivered outcome),
          accounts := st.accounts.map
            (fun p => (p.1, recalcOrKeep p.2 (fetchDelivered outcome))) }) := by
  cases houtcome : fetchDelivered outcome with
  | nil =>
    cases hc : st.cache <;>
      simp [update_currency_rates, update_rates, load_rates_from_file,
        save_rates_to_file, houtcome, hc]
  | cons x xs =>
    simp [update_currency_rates, update_rates, load_rates_from_file,
      save_rates_to_file, houtcome]

/-- C4 witness: a successful fetch of a one-entry table installs it, caches
it, and reports success once. -/
theorem C4_witness :
    (update_currency_rates { rates := [], cache := none, accounts := [] }
        (some [("RUB".toList, 1)])).1 =
      { rates := [("RUB".toList, 1)], cache := some [("RUB".toList, 1)],
        accounts := [] } :=
  (C4_refresh { rates := [], cache := none, accounts := [] }
    (some [("RUB".toList, 1)])).2.2 (by simp [fetchDelivered])

/-- C6: evaluating `merge_account` at a failing input: A empty, B holding one
transaction.  The destination ends with `0 + 1` transactions and the
recomputed balance, as the claim states — but B still holds its one
(moved-from) element: `make_move_iterator` never clears `other.transactions`,
so B does not end empty, contradicting the claim and the function's own
`@post` documentation. -/
theorem C6_merge_leaves_other_nonempty :
    Account.merge_account { name := "A".toList } accB rubOnly
      = .ok ({ name := "A".toList, balance := 100, transactions := [txRub100] }, accB) ∧
    accB.transactions.length = 1 ∧
    ¬(accB.transactions.length = 0) := by
  refine ⟨?_, rfl, by simp [accB]⟩
  simp [Account.merge_account, Account.recalculateBalance, sumInRub,
    Transaction.get_amount_in_rub, convert, accB, txRub100, rubOnly]

/-- `sumSigned` splits over append. -/
theorem sumSigned_append (a b : List Transaction) :
    sumSigned (a ++ b) = sumSigned a + sumSigned b := by
  simp [sumSigned]

/-- Erasing by id only removes elements of the original list. -/
theorem eraseFirstId_mem {ts : List Transaction} {i : Int} {t : Transaction}
    (h : t ∈ eraseFirstId ts i) : t ∈ ts := by
  induction ts with
  | nil => simp [eraseFirstId] at h
  | cons x xs ih =>
    by_cases hx : (x.id == i) = true
    · simp only [eraseFirstId, if_pos hx] at h
      exact List.mem_cons_of_mem x h
    · simp only [eraseFirstId, if_neg hx] at h
      rcases List.mem_cons.mp h with h | h
      · exact h ▸ List.mem_cons_self x xs
      · exact List.mem_cons_of_mem x (ih h)

/-- Erasing the first id-match removes exactly the signed amount of the
transaction `find?` located. -/
theorem sumSigned_eraseFirstId {ts : List Transaction} {i : Int} {t : Transaction}
    (h : ts.find? (fun x => x.id == i) = some t) :
    sumSigned (eraseFirstId ts i) = sumSigned ts - t.get_signed_amount := by
  induction ts with
  | nil => simp [List.find?] at h
  | cons x xs ih =>
    rw [List.find?_cons] at h
    cases hx : (x.id == i) with
    | true =>
      rw [hx] at h
      have hxt : x = t := Option.some.inj h
      subst hxt
      simp only [eraseFirstId, if_pos hx]
      simp [sumSigned]
    | false =>
      rw [hx] at h
      simp only [eraseFirstId, hx, Bool.false_eq_true, if_false]
      have := ih h
      simp only [sumSigned, List.map_cons, List.sum_cons] at this ⊢
      rw [this]
      ring

/-- One add/remove operation preserves the balance bookkeeping invariant
(when additions are RUB income transactions). -/
theorem balInv_applyOp {a : Account} {op : AccOp}
    (ha : balInv a) (hop : opIncomeRub op) : balInv (applyOp a op) := by
  cases op with
  | add t =>
    by_cases hdup : (a.transactions.any (fun ex => ex.id == t.id)) = true
    · simpa [applyOp, Account.addTransaction, hdup] using ha
    · simp only [applyOp, Account.addTransaction, hdup, Bool.false_eq_true, if_false]
      constructor
      · show a.balance + t.get_signed_amount = sumSigned (a.transactions ++ [t])
        rw [sumSigned_append, ha.1]
        simp [sumSigned]
      · intro x hx
        rcases List.mem_append.mp hx with h | h
        · exact ha.2 x h
        · rcases List.mem_singleton.mp h with rfl
          exact hop
  | remove i =>
    cases hf : a.transactions.find? (fun x => x.id == i) with
    | none => simpa [applyOp, Account.removeTransaction, hf] using ha
    | some t =>
      simp only [applyOp, Account.removeTransaction, hf]
      constructor
      · show a.balance - t.get_signed_amount = sumSigned (eraseFirstId a.transactions i)
        rw [sumSigned_eraseFirstId hf, ha.1]
      · intro x hx
        exact ha.2 x (eraseFirstId_mem hx)

/-- A whole operation sequence preserves the invariant. -/
theorem balInv_applyOps {ops : List AccOp} :
    ∀ {a : Account}, balInv a → (∀ op ∈ ops, opIncomeRub op) → balInv (applyOps a ops) := by
  induction ops with
  | nil => intro a ha _; simpa [applyOps] using ha
  | cons op rest ih =>
    intro a ha hops
    have h1 : balInv (applyOp a op) :=
      balInv_applyOp ha (hops op (List.mem_cons_self op rest))
    have h2 : ∀ o ∈ rest, opIncomeRub o := fun o ho => hops o (List.mem_cons_of_mem op ho)
    simpa [applyOps, List.foldl_cons] using ih h1 h2

/-- Over RUB transactions the conversion is the identity (the `from == to`
short-circuit), so the recomputation sums the raw amounts; for income
transactions those equal the signed amounts. -/
theorem sumInRub_rub_income {rates : RatesMap} {ts : List Transaction}
    (h : ∀ t ∈ ts, t.type = .income ∧ t.currency_ = "RUB".toList) :
    sumInRub rates ts = .ok (sumSigned ts) := by
  induction ts with
  | nil => simp [sumInRub, sumSigned]
  | cons x xs ih =>
    have hx := h x (List.mem_cons_self x xs)
    have hxs : ∀ t ∈ xs, t.type = .income ∧ t.currency_ = "RUB".toList :=
      fun t ht => h t (List.mem_cons_of_mem x ht)
    simp only [sumInRub, Transaction.get_amount_in_rub, hx.2, convert, if_pos rfl,
      ih hxs]
    simp [sumSigned, Transaction.get_signed_amount, hx.1]

/-- C1 (amended): for every sequence of add/remove operations over INCOME
transactions denominated in the reference currency RUB, starting from a
fresh account, `recalculate_balance` returns the account unchanged: the
recomputed balance equals the incrementally maintained balance exactly
(hence within 0.01).  (The claim fails for arbitrary currencies — the
increments use native signed amounts while the recomputation converts — and
for expenses, whose sign the recomputation ignores.) -/
theorem C1_balance_invariant (nm : Str) (ops : List AccOp) (rates : RatesMap)
    (h : ∀ op ∈ ops, opIncomeRub op) :
    (applyOps { name := nm } ops).recalculateBalance rates
      = .ok (applyOps { name := nm } ops) := by
  have hinv : balInv (applyOps { name := nm } ops) := by
    refine balInv_applyOps ?_ h
    constructor
    · simp [sumSigned]
    · intro t ht; simp at ht
  rw [Account.recalculateBalance, sumInRub_rub_income hinv.2, ← hinv.1]

/-- C1 witness: a one-element RUB income history recomputes to its own
maintained balance. -/
theorem C1_witness :
    (applyOps { name := "A".toList } [.add txRub100]).recalculateBalance rubOnly
      = .ok (applyOps { name := "A".toList } [.add txRub100]) :=
  C1_balance_invariant ("A".toList) [.add txRub100] rubOnly (by
    intro op hop
    rcases List.mem_singleton.mp hop with rfl
    exact ⟨rfl, rfl⟩)

/-- C1 counterexample: one USD income of 100 with table {RUB:1, USD:90}: the
maintained balance is 100 (the native signed amount) while
`recalculate_balance` yields 9000 — not within 0.01. -/
theorem C1_counterexample :
    (applyOps { name := "A".toList } [.add txUsd100]).balance = 100 ∧
    (applyOps { name := "A".toList } [.add txUsd100]).recalculateBalance rubUsd
      = .ok { name := "A".toList, balance := 9000, transactions := [txUsd100] } ∧
    ¬(|(9000 : ℚ) - 100| < 1 / 100) := by
  refine ⟨?_, ?_, by norm_num⟩
  · simp [applyOps, applyOp, Account.addTransaction, txUsd100, txRub100,
      Transaction.get_signed_amount]
  · simp [applyOps, applyOp, Account.addTransaction, Account.recalculateBalance,
      sumInRub, Transaction.get_amount_in_rub, convert, ratesAt, txUsd100, txRub100,
      Transaction.get_signed_amount, rubUsd]
    norm_num

/-! ### Codec lemmas: characters and digit strings -/

theorem isDigitCh_iff {c : Char} : isDigitCh c = true ↔ 48 ≤ c.toNat ∧ c.toNat ≤ 57 := by
  simp [isDigitCh]

/-- A digit character is none of the delimiter/marker characters the codec
cares about, and is not whitespace. -/
theorem digit_props {c : Char} (h : isDigitCh c = true) :
    isSpaceTab c = false ∧ c ≠ '-' ∧ c ≠ ',' ∧ c ≠ '.' ∧ c ≠ '[' ∧ c ≠ ';' := by
  rw [isDigitCh_iff] at h
  refine ⟨?_, ?_, ?_, ?_, ?_, ?_⟩
  · simp only [isSpaceTab, Bool.or_eq_false_iff, beq_eq_false_iff_ne]
    constructor <;> (intro hc; subst hc; revert h; decide)
  all_goals (intro hc; subst hc; revert h; decide)

theorem digitVal_digitOf {r : Nat} (h : r < 10) : digitVal (digitOf r) = r := by
  interval_cases r <;> decide

theorem isDigitCh_digitOf {r : Nat} (h : r < 10) : isDigitCh (digitOf r) = true := by
  interval_cases r <;> decide

theorem parseNatCore_append_digit (ds : Str) (c : Char) :
    parseNatCore (ds ++ [c]) = 10 * parseNatCore ds + digitVal c := by
  simp [parseNatCore, List.foldl_append]

theorem natDigits_all_digit :
    ∀ (fuel n : Nat), ∀ c ∈ natDigits fuel n, isDigitCh c = true := by
  intro fuel
  induction fuel with
  | zero => intro n c hc; simp [natDigits] at hc
  | succ f ih =>
    intro n c hc
    by_cases hn : n = 0
    · simp [natDigits, hn] at hc
    · simp only [natDigits, if_neg hn] at hc
      rcases List.mem_append.mp hc with h | h
      · exact ih (n / 10) c h
      · rcases List.mem_singleton.mp h with rfl
        exact isDigitCh_digitOf (Nat.mod_lt n (by omega))

theorem parse_natDigits :
    ∀ (fuel n : Nat), n < 10 ^ fuel → parseNatCore (natDigits fuel n) = n := by
  intro fuel
  induction fuel with
  | zero => intro n h; interval_cases n; simp [natDigits, parseNatCore]
  | succ f ih =>
    intro n h
    by_cases hn : n = 0
    · simp [natDigits, hn, parseNatCore]
    · simp only [natDigits, if_neg hn]
      rw [parseNatCore_append_digit, ih (n / 10) ?_, digitVal_digitOf (Nat.mod_lt n (by omega))]
      · omega
      · have h10 : n < 10 * 10 ^ f := by
          have : (10 : Nat) ^ (f + 1) = 10 * 10 ^ f := by ring
          omega
        exact Nat.div_lt_of_lt_mul h10

theorem natDigits_ne_nil {fuel n : Nat} (h0 : 0 < n) : natDigits (fuel + 1) n ≠ [] := by
  simp only [natDigits, if_neg (Nat.pos_iff_ne_zero.mp h0)]
  simp

theorem n_lt_ten_pow (n : Nat) : n < 10 ^ (n + 1) := by
  calc n < n + 1 := Nat.lt_succ_self n
  _ ≤ 10 ^ (n + 1) := by
    induction n with
    | zero => simp
    | succ k ihh =>
      have : (10 : Nat) ^ (k + 1) * 1 ≤ 10 ^ (k + 1) * 10 := by
        exact Nat.mul_le_mul_left _ (by omega)
      calc k + 1 + 1 ≤ 10 ^ (k + 1) + 1 := by omega
      _ ≤ 10 ^ (k + 2) := by
        have hp : (0 : Nat) < 10 ^ (k + 1) := Nat.pos_pow_of_pos _ (by omega)
        have : (10 : Nat) ^ (k + 2) = 10 ^ (k + 1) * 10 := by ring
        omega

theorem showNat_all_digit (n : Nat) : ∀ c ∈ showNat n, isDigitCh c = true := by
  intro c hc
  by_cases hn : n = 0
  · simp [showNat, hn] at hc
    subst hc; decide
  · simp only [showNat, if_neg hn] at hc
    exact natDigits_all_digit (n + 1) n c hc

theorem parse_showNat (n : Nat) : parseNatCore (showNat n) = n := by
  by_cases hn : n = 0
  · subst hn; decide
  · simp only [showNat, if_neg hn]
    exact parse_natDigits (n + 1) n (n_lt_ten_pow n)

theorem showNat_ne_nil (n : Nat) : showNat n ≠ [] := by
  by_cases hn : n = 0
  · simp [showNat, hn]
  · simp only [showNat, if_neg hn]
    exact natDigits_ne_nil (Nat.pos_iff_ne_zero.mpr hn)

/-- `takeWhile`/`dropWhile` across an append whose left part satisfies the
predicate and whose right part starts with a failing element (or is empty). -/
theorem takeWhile_append_all {p : Char → Bool} {xs ys : List Char}
    (hx : ∀ c ∈ xs, p c = true) (hy : ∀ y, ys.head? = some y → p y = false) :
    (xs ++ ys).takeWhile p = xs ∧ (xs ++ ys).dropWhile p = ys := by
  induction xs with
  | nil =>
    simp only [List.nil_append]
    cases ys with
    | nil => simp
    | cons y t =>
      have := hy y rfl
      simp [List.takeWhile_cons, List.dropWhile_cons, this]
  | cons x xs ih =>
    have hpx := hx x (List.mem_cons_self x xs)
    have ih2 := ih (fun c hc => hx c (List.mem_cons_of_mem x hc))
    simp [List.takeWhile_cons, List.dropWhile_cons, hpx, ih2.1, ih2.2]

theorem head?_append_of_ne_nil {xs ys : List Char} (h : xs ≠ []) :
    (xs ++ ys).head? = xs.head? := by
  cases xs with
  | nil => exact absurd rfl h
  | cons x t => simp

/-- A list which starts with a non-space character survives the leading
whitespace skip unchanged. -/
theorem dropWhile_spaceTab_eq_self {s : Str}
    (h : ∀ y, s.head? = some y → isSpaceTab y = false) :
    s.dropWhile isSpaceTab = s := by
  cases s with
  | nil => simp
  | cons x t => simp [List.dropWhile_cons, h x rfl]

theorem showNat_head_digit (n : Nat) :
    ∃ c, (showNat n).head? = some c ∧ isDigitCh c = true := by
  cases hs : showNat n with
  | nil => exact absurd hs (showNat_ne_nil n)
  | cons c t =>
    refine ⟨c, rfl, ?_⟩
    exact showNat_all_digit n c (hs ▸ List.mem_cons_self c t)

/-- `readIntFrom` on the decimal text of `i` followed by a remainder that
does not start with a digit: the value is recovered and the remainder
returned whole. -/
theorem readIntFrom_append (i : Int) (rest : Str)
    (hrest : ∀ y, rest.head? = some y → isDigitCh y = false) :
    readIntFrom (showInt i ++ rest) = some (i, rest) := by
  cases i with
  | ofNat n =>
    obtain ⟨c, hc, hcd⟩ := showNat_head_digit n
    have hprops := digit_props hcd
    have hhead : (showNat n ++ rest).head? = some c := by
      rw [head?_append_of_ne_nil (showNat_ne_nil n)]; exact hc
    have hdrop : (showNat n ++ rest).dropWhile isSpaceTab = showNat n ++ rest := by
      refine dropWhile_spaceTab_eq_self ?_
      intro y hy
      rw [hhead] at hy
      cases Option.some.inj hy
      exact hprops.1
    have htake := takeWhile_append_all (showNat_all_digit n) hrest
    simp only [showInt, readIntFrom, hdrop, hhead]
    have hcne : (some c = some '-') = False := by
      simp only [Option.some.injEq, eq_iff_iff, iff_false]
      exact hprops.2.1
    simp only [hcne, if_false, htake.1, htake.2, showNat_ne_nil n, if_neg (showNat_ne_nil n)]
    rw [parse_showNat]
    rfl
  | negSucc n =>
    have hdash : isSpaceTab '-' = false := by decide
    have hlist : showInt (Int.negSucc n) ++ rest = '-' :: (showNat (n + 1) ++ rest) := by
      simp [showInt]
    rw [hlist]
    have hdrop : ('-' :: (showNat (n + 1) ++ rest)).dropWhile isSpaceTab
        = '-' :: (showNat (n + 1) ++ rest) := by
      refine dropWhile_spaceTab_eq_self ?_
      intro y hy
      cases Option.some.inj hy
      exact hdash
    have htake := takeWhile_append_all (showNat_all_digit (n + 1)) hrest
    simp only [readIntFrom, hdrop, List.head?_cons, if_pos rfl, List.tail_cons,
      htake.1, htake.2, if_neg (showNat_ne_nil (n + 1))]
    rw [parse_showNat]
    congr 1

theorem stoiModel_showInt (i : Int) : stoiModel (showInt i) = some i := by
  have h := readIntFrom_append i [] (by intro y hy; simp at hy)
  rw [List.append_nil] at h
  simp [stoiModel, h]

/-- A leading space is skipped by `readIntFrom`. -/
theorem readIntFrom_cons_space (s : Str) : readIntFrom (' ' :: s) = readIntFrom s := by
  have hdw : (' ' :: s).dropWhile isSpaceTab = s.dropWhile isSpaceTab := by
    simp [List.dropWhile_cons, show isSpaceTab ' ' = true from by decide]
  unfold readIntFrom
  rw [hdw]

/-- Date round-trip: `"y m d"` parses back to the (valid) date. -/
theorem parseDate_showDate (d : Date) (h : d.is_valid = true) :
    parseDate (showDate d) = some d := by
  have hsp : ∀ (z : Str), ∀ y, (' ' :: z).head? = some y → isDigitCh y = false := by
    intro z y hy
    cases Option.some.inj hy
    decide
  have h1 := readIntFrom_append d.year (' ' :: (showInt d.month ++ ' ' :: showInt d.day))
    (hsp _)
  have h2 := readIntFrom_append d.month (' ' :: showInt d.day) (hsp _)
  have h3 := readIntFrom_append d.day [] (by intro y hy; simp at hy)
  rw [List.append_nil] at h3
  simp only [parseDate, showDate, List.cons_append, List.append_assoc, h1,
    readIntFrom_cons_space, h2, h3]
  simp only [h, if_true]

theorem takeWhile_all_digits {s : Str} (h : ∀ c ∈ s, isDigitCh c = true) :
    s.takeWhile isDigitCh = s ∧ s.dropWhile isDigitCh = [] := by
  have := @takeWhile_append_all isDigitCh s [] h (by intro y hy; simp at hy)
  simpa using this

/-- When the string starts with a digit, the sign/whitespace preamble of
`stodModel` is inert. -/
theorem stodModel_of_digit_head {s : Str} (c : Char)
    (hc1 : s.head? = some c) (hc2 : isDigitCh c = true) :
    stodModel s = stodMag s := by
  have hprops := digit_props hc2
  have hdrop : s.dropWhile isSpaceTab = s := by
    refine dropWhile_spaceTab_eq_self ?_
    intro y hy
    rw [hc1] at hy
    cases Option.some.inj hy
    exact hprops.1
  have hne : (s.head? = some '-') = False := by
    rw [hc1]
    simp only [Option.some.injEq, eq_iff_iff, iff_false]
    exact hprops.2.1
  simp only [stodModel, hdrop, hne, if_false]

/-- The amount printer round-trips through the amount parser on the regime
of the round-trip theorem. -/
theorem stod_showAmount {q : ℚ} (h : amountOk q) : stodModel (showAmount q) = some q := by
  obtain ⟨hpos, hden, _⟩ := h
  have hq100 : (((q * 100).num : ℤ) : ℚ) = q * 100 := by
    rw [← Rat.den_eq_one_iff]
    exact hden
  have hnpos : 0 < (q * 100).num := Rat.num_pos.mpr (by positivity)
  have hNn : (((q * 100).num.toNat : ℤ)) = (q * 100).num := Int.toNat_of_nonneg hnpos.le
  set N : Nat := (q * 100).num.toNat with hN
  have hqN : q = (N : ℚ) / 100 := by
    have hcast : ((N : ℚ)) = q * 100 := by
      rw [show ((N : ℚ)) = (((N : ℤ)) : ℚ) by push_cast; ring]
      rw [hNn, hq100]
    rw [hcast]
    ring
  have hshow : showAmount q = showCents N := by
    simp only [showAmount]
    rw [if_neg (by omega : ¬(q * 100).num < 0)]
    congr 1
    omega
  rw [hshow]
  by_cases h100 : N % 100 = 0
  · -- integral amount: no decimal point is printed
    have hs : showCents N = showNat (N / 100) := by simp [showCents, h100]
    rw [hs]
    obtain ⟨c, hc1, hc2⟩ := showNat_head_digit (N / 100)
    rw [stodModel_of_digit_head c hc1 hc2]
    have htake := takeWhile_all_digits (showNat_all_digit (N / 100))
    unfold stodMag
    rw [htake.1, htake.2]
    simp only [List.head?_nil, if_neg (showNat_ne_nil (N / 100))]
    rw [if_neg (by simp)]
    rw [parse_showNat]
    congr 1
    rw [hqN]
    have hsplitQ : (N : ℚ) = 100 * ((N / 100 : ℕ) : ℚ) := by
      have hs2 : N = 100 * (N / 100) := by omega
      exact_mod_cast congrArg (fun k : ℕ => (k : ℚ)) hs2
    rw [hsplitQ]
    ring
  · have hb : N / 10 % 10 < 10 := Nat.mod_lt _ (by omega)
    have hc : N % 10 < 10 := Nat.mod_lt _ (by omega)
    by_cases h10 : N % 10 = 0
    · -- one fraction digit
      have hs : showCents N = showNat (N / 100) ++ ['.', digitOf (N / 10 % 10)] := by
        simp [showCents, h100, h10]
      rw [hs]
      have hhead : (showNat (N / 100) ++ ['.', digitOf (N / 10 % 10)]).head?
          = (showNat (N / 100)).head? :=
        head?_append_of_ne_nil (showNat_ne_nil (N / 100))
      obtain ⟨c0, hc1, hc2⟩ := showNat_head_digit (N / 100)
      rw [stodModel_of_digit_head c0 (hhead.trans hc1) hc2]
      have htake := @takeWhile_append_all isDigitCh (showNat (N / 100))
        ['.', digitOf (N / 10 % 10)] (showNat_all_digit (N / 100))
        (by intro y hy; cases Option.some.inj hy; decide)
      unfold stodMag
      rw [htake.1, htake.2]
      simp only [List.head?_cons, List.tail_cons]
      simp only [if_true]
      have hfs : ([digitOf (N / 10 % 10)] : Str).takeWhile isDigitCh
          = [digitOf (N / 10 % 10)] := by
        simp [List.takeWhile_cons, isDigitCh_digitOf hb]
      rw [hfs]
      rw [if_neg (fun hcontra => showNat_ne_nil (N / 100) hcontra.1)]
      have hpf : parseNatCore [digitOf (N / 10 % 10)] = N / 10 % 10 := by
        simp [parseNatCore, digitVal_digitOf hb]
      rw [parse_showNat, hpf]
      congr 1
      rw [hqN]
      have hsplitQ : (N : ℚ) = 100 * ((N / 100 : ℕ) : ℚ) + 10 * ((N / 10 % 10 : ℕ) : ℚ) := by
        have hs2 : N = 100 * (N / 100) + 10 * (N / 10 % 10) := by omega
        exact_mod_cast congrArg (fun k : ℕ => (k : ℚ)) hs2
      rw [hsplitQ]
      simp only [List.length_singleton, pow_one]
      field_simp
      ring
    · -- two fraction digits
      have hs : showCents N
          = showNat (N / 100) ++ ['.', digitOf (N / 10 % 10), digitOf (N % 10)] := by
        simp [showCents, h100, h10]
      rw [hs]
      have hhead : (showNat (N / 100) ++ ['.', digitOf (N / 10 % 10), digitOf (N % 10)]).head?
          = (showNat (N / 100)).head? :=
        head?_append_of_ne_nil (showNat_ne_nil (N / 100))
      obtain ⟨c0, hc1, hc2⟩ := showNat_head_digit (N / 100)
      rw [stodModel_of_digit_head c0 (hhead.trans hc1) hc2]
      have htake := @takeWhile_append_all isDigitCh (showNat (N / 100))
        ['.', digitOf (N / 10 % 10), digitOf (N % 10)] (showNat_all_digit (N / 100))
        (by intro y hy; cases Option.some.inj hy; decide)
      unfold stodMag
      rw [htake.1, htake.2]
      simp only [List.head?_cons, List.tail_cons]
      simp only [if_true]
      have hfs : ([digitOf (N / 10 % 10), digitOf (N % 10)] : Str).takeWhile isDigitCh
          = [digitOf (N / 10 % 10), digitOf (N % 10)] := by
        simp [List.takeWhile_cons, isDigitCh_digitOf hb, isDigitCh_digitOf hc]
      rw [hfs]
      rw [if_neg (fun hcontra => showNat_ne_nil (N / 100) hcontra.1)]
      have hpf : parseNatCore [digitOf (N / 10 % 10), digitOf (N % 10)]
          = 10 * (N / 10 % 10) + N % 10 := by
        simp [parseNatCore, digitVal_digitOf hb, digitVal_digitOf hc]
      rw [parse_showNat, hpf]
      congr 1
      rw [hqN]
      have hsplitQ : (N : ℚ)
          = 100 * ((N / 100 : ℕ) : ℚ) + 10 * ((N / 10 % 10 : ℕ) : ℚ) + ((N % 10 : ℕ) : ℚ) := by
        have hs2 : N = 100 * (N / 100) + 10 * (N / 10 % 10) + N % 10 := by omega
        exact_mod_cast congrArg (fun k : ℕ => (k : ℚ)) hs2
      rw [hsplitQ]
      simp only [List.length_cons, List.length_nil]
      push_cast
      field_simp
      ring

/-! ### Codec lemmas: splitting and joining -/

theorem splitOnChar_ne_nil (c : Char) (s : Str) : splitOnChar c s ≠ [] := by
  cases s with
  | nil => simp [splitOnChar]
  | cons x xs =>
    simp only [splitOnChar]
    cases h : splitOnChar c xs with
    | nil => simp
    | cons f rest => by_cases hx : x = c <;> simp [hx]

theorem splitOnChar_not_mem {c : Char} {f : Str} (h : c ∉ f) : splitOnChar c f = [f] := by
  induction f with
  | nil => simp [splitOnChar]
  | cons x xs ih =>
    have hx : x ≠ c := fun hc => h (hc ▸ List.mem_cons_self x xs)
    have hxs : c ∉ xs := fun hc => h (List.mem_cons_of_mem x hc)
    simp only [splitOnChar, ih hxs]
    simp [hx]

theorem splitOnChar_field {c : Char} {f rest : Str} (h : c ∉ f) :
    splitOnChar c (f ++ c :: rest) = f :: splitOnChar c rest := by
  induction f with
  | nil =>
    simp only [List.nil_append, splitOnChar]
    cases hs : splitOnChar c rest with
    | nil => exact absurd hs (splitOnChar_ne_nil c rest)
    | cons g r => simp
  | cons x xs ih =>
    have hx : x ≠ c := fun hc => h (hc ▸ List.mem_cons_self x xs)
    have hxs : c ∉ xs := fun hc => h (List.mem_cons_of_mem x hc)
    simp only [List.cons_append, splitOnChar, List.append_eq]
    rw [ih hxs]
    simp [hx]

theorem splitOnChar_join {c : Char} :
    ∀ {fields : List Str}, fields ≠ [] → (∀ f ∈ fields, c ∉ f) →
      splitOnChar c (join_strings fields c) = fields := by
  intro fields
  induction fields with
  | nil => intro h _; exact absurd rfl h
  | cons f fs ih =>
    intro _ hall
    cases fs with
    | nil =>
      show splitOnChar c (join_strings [f] c) = [f]
      simp only [join_strings]
      exact splitOnChar_not_mem (hall f (List.mem_cons_self f []))
    | cons g rest =>
      show splitOnChar c (f ++ c :: join_strings (g :: rest) c) = f :: (g :: rest)
      rw [splitOnChar_field (hall f (List.mem_cons_self f _))]
      rw [ih (by simp) (fun x hx => hall x (List.mem_cons_of_mem f hx))]

theorem join_getLast_facts {c : Char} :
    ∀ (fields : List Str), fields ≠ [] → (∀ f ∈ fields, c ∉ f) →
      (∀ lf, fields.getLast? = some lf → lf ≠ []) →
      join_strings fields c ≠ [] ∧ (join_strings fields c).getLast? ≠ some c := by
  intro fields
  induction fields with
  | nil => intro h _ _; exact absurd rfl h
  | cons f fs ih =>
    intro _ hall hlast
    cases fs with
    | nil =>
      have hf : f ≠ [] := hlast f (by simp)
      have hcf : c ∉ f := hall f (List.mem_cons_self f [])
      constructor
      · show join_strings [f] c ≠ []
        simpa [join_strings] using hf
      · show (join_strings [f] c).getLast? ≠ some c
        simp only [join_strings]
        intro hsome
        have hmem : c ∈ f := by
          rw [List.getLast?_eq_getLast f hf] at hsome
          exact (Option.some.inj hsome) ▸ List.getLast_mem hf
        exact hcf hmem
    | cons g rest =>
      have hIH := ih (by simp)
        (fun x hx => hall x (List.mem_cons_of_mem f hx))
        (fun lf hlf => hlast lf (by rwa [List.getLast?_cons_cons]))
      have hsh : join_strings (f :: g :: rest) c = f ++ c :: join_strings (g :: rest) c := rfl
      constructor
      · rw [hsh]
        simp
      · rw [hsh]
        have h2 : (f ++ c :: join_strings (g :: rest) c).getLast?
            = (c :: join_strings (g :: rest) c).getLast? := by
          cases hj : join_strings (g :: rest) c with
          | nil => exact absurd hj hIH.1
          | cons a b =>
            rw [List.getLast?_append]
            cases hl : (c :: a :: b).getLast? with
            | none =>
              rw [List.getLast?_eq_getLast _ (by simp)] at hl
              simp at hl
            | some v => simp
        rw [h2]
        cases hj : join_strings (g :: rest) c with
        | nil => exact absurd hj hIH.1
        | cons a b =>
          rw [List.getLast?_cons_cons]
          rw [← hj]
          exact hIH.2

theorem cppGetlineSplit_join {c : Char} {fields : List Str}
    (hne : fields ≠ []) (hall : ∀ f ∈ fields, c ∉ f)
    (hlast : ∀ lf, fields.getLast? = some lf → lf ≠ []) :
    cppGetlineSplit c (join_strings fields c) = fields := by
  obtain ⟨hjn, hjl⟩ := join_getLast_facts fields hne hall hlast
  simp only [cppGetlineSplit, if_neg hjn, if_neg hjl]
  exact splitOnChar_join hne hall

theorem join_strings_eq_dash {tags : List Str} (hne : tags ≠ [])
    (hnonempty : ∀ tg ∈ tags, tg ≠ []) (h : join_strings tags ';' = ['-']) :
    tags = [['-']] := by
  cases tags with
  | nil => exact absurd rfl hne
  | cons f fs =>
    cases fs with
    | nil =>
      have : f = ['-'] := by simpa [join_strings] using h
      rw [this]
    | cons g rest =>
      exfalso
      have hf : f ≠ [] := hnonempty f (List.mem_cons_self f _)
      have hlen : (f ++ ';' :: join_strings (g :: rest) ';').length = 1 := by
        have hsh : join_strings (f :: g :: rest) ';' = f ++ ';' :: join_strings (g :: rest) ';' := rfl
        rw [← hsh, h]
        simp
      simp only [List.length_append, List.length_cons] at hlen
      have : 1 ≤ f.length := List.length_pos.mpr hf
      omega

theorem addTagsLoop_ok :
    ∀ (pend acc : List Str), (acc ++ pend).Nodup → (acc ++ pend).length ≤ MAX_TAGS →
      (∀ tg ∈ pend, tg ≠ []) → addTagsLoop acc pend = some (acc ++ pend) := by
  intro pend
  induction pend with
  | nil => intro acc _ _ _; simp [addTagsLoop]
  | cons tg rest ih =>
    intro acc hnd hlen hnonempty
    have htg : tg ≠ [] := hnonempty tg (List.mem_cons_self _ _)
    have hlimit : ¬(MAX_TAGS ≤ acc.length) := by
      simp only [List.length_append, List.length_cons] at hlen
      unfold MAX_TAGS at hlen ⊢
      omega
    have hdup : tg ∉ acc := by
      intro hin
      have hdisj := (List.nodup_append.mp hnd).2.2
      exact hdisj hin (List.mem_cons_self tg rest)
    simp only [addTagsLoop, if_neg htg, add_tag_list, if_neg hlimit, if_neg hdup]
    rw [ih (acc ++ [tg]) ?_ ?_ ?_]
    · simp
    · simpa [List.append_assoc] using hnd
    · simpa [List.append_assoc] using hlen
    · exact fun tg' h' => hnonempty tg' (List.mem_cons_of_mem _ h')

/-! ### Codec lemmas: the characters of the printed fields -/

theorem showInt_chars {i : Int} : ∀ c ∈ showInt i, isDigitCh c = true ∨ c = '-' := by
  cases i with
  | ofNat n => exact fun c hc => Or.inl (showNat_all_digit n c hc)
  | negSucc n =>
    intro c hc
    rcases List.mem_cons.mp hc with rfl | hc
    · exact Or.inr rfl
    · exact Or.inl (showNat_all_digit (n + 1) c hc)

theorem showCents_chars {n : Nat} : ∀ c ∈ showCents n, isDigitCh c = true ∨ c = '.' := by
  intro c hc
  unfold showCents at hc
  split at hc
  · exact Or.inl (showNat_all_digit _ c hc)
  · split at hc
    · rcases List.mem_append.mp hc with hc | hc
      · exact Or.inl (showNat_all_digit _ c hc)
      · rcases List.mem_cons.mp hc with rfl | hc
        · exact Or.inr rfl
        · rcases List.mem_singleton.mp hc with rfl
          exact Or.inl (isDigitCh_digitOf (Nat.mod_lt _ (by omega)))
    · rcases List.mem_append.mp hc with hc | hc
      · exact Or.inl (showNat_all_digit _ c hc)
      · rcases List.mem_cons.mp hc with rfl | hc
        · exact Or.inr rfl
        · rcases List.mem_cons.mp hc with rfl | hc
          · exact Or.inl (isDigitCh_digitOf (Nat.mod_lt _ (by omega)))
          · rcases List.mem_singleton.mp hc with rfl
            exact Or.inl (isDigitCh_digitOf (Nat.mod_lt _ (by omega)))

theorem showAmount_chars {q : ℚ} : ∀ c ∈ showAmount q, isDigitCh c = true ∨ c = '.' ∨ c = '-' := by
  intro c hc
  simp only [showAmount] at hc
  split at hc
  · rcases List.mem_cons.mp hc with rfl | hc
    · exact Or.inr (Or.inr rfl)
    · rcases showCents_chars c hc with h | h
      · exact Or.inl h
      · exact Or.inr (Or.inl h)
  · rcases showCents_chars c hc with h | h
    · exact Or.inl h
    · exact Or.inr (Or.inl h)

theorem showDate_chars {d : Date} : ∀ c ∈ showDate d, isDigitCh c = true ∨ c = '-' ∨ c = ' ' := by
  intro c hc
  unfold showDate at hc
  simp only [List.cons_append, List.append_assoc, List.mem_append, List.mem_cons] at hc
  rcases hc with hc | rfl | hc | rfl | hc
  · rcases showInt_chars c hc with h | h
    · exact Or.inl h
    · exact Or.inr (Or.inl h)
  · exact Or.inr (Or.inr rfl)
  · rcases showInt_chars c hc with h | h
    · exact Or.inl h
    · exact Or.inr (Or.inl h)
  · exact Or.inr (Or.inr rfl)
  · rcases showInt_chars c hc with h | h
    · exact Or.inl h
    · exact Or.inr (Or.inl h)

theorem comma_not_mem_showInt (i : Int) : ',' ∉ showInt i := by
  intro h
  rcases showInt_chars ',' h with h | h
  · exact absurd h (by decide)
  · exact absurd h (by decide)

theorem comma_not_mem_showAmount (q : ℚ) : ',' ∉ showAmount q := by
  intro h
  rcases showAmount_chars ',' h with h | h | h
  · exact absurd h (by decide)
  · exact absurd h (by decide)
  · exact absurd h (by decide)

theorem comma_not_mem_showDate (d : Date) : ',' ∉ showDate d := by
  intro h
  rcases showDate_chars ',' h with h | h | h
  · exact absurd h (by decide)
  · exact absurd h (by decide)
  · exact absurd h (by decide)

theorem tagsField_ne_nil {tags : List Str} (h : ∀ tg ∈ tags, tg ≠ []) :
    tagsField tags ≠ [] := by
  unfold tagsField
  split
  · simp
  · rename_i hne
    cases tags with
    | nil => exact absurd rfl hne
    | cons f fs =>
      cases fs with
      | nil =>
        show join_strings [f] ';' ≠ []
        simpa [join_strings] using h f (List.mem_cons_self f [])
      | cons g rest =>
        show f ++ ';' :: join_strings (g :: rest) ';' ≠ []
        simp

theorem comma_not_mem_tagsField {tags : List Str} (h : ∀ tg ∈ tags, ',' ∉ tg) :
    ',' ∉ tagsField tags := by
  unfold tagsField
  split
  · decide
  · intro hmem
    induction tags with
    | nil => simp [join_strings] at hmem
    | cons f fs ih =>
      cases fs with
      | nil =>
        exact h f (List.mem_cons_self f []) (by simpa [join_strings] using hmem)
      | cons g rest =>
        have hsh : join_strings (f :: g :: rest) ';' = f ++ ';' :: join_strings (g :: rest) ';' := rfl
        rw [hsh] at hmem
        rcases List.mem_append.mp hmem with hm | hm
        · exact h f (List.mem_cons_self f _) hm
        · rcases List.mem_cons.mp hm with hm | hm
          · exact absurd hm.symm (by decide)
          · exact ih (fun tg htg => h tg (List.mem_cons_of_mem f htg)) (by simp) hm

/-- `typeOfCode` inverts `typeCode`. -/
theorem typeOfCode_typeCode (ty : TxType) : typeOfCode (typeCode ty) = ty := by
  cases ty <;> rfl

/-- The comma split of a saved transaction line recovers the eight fields. -/
theorem fields_of_serializeTx {t : Transaction} (h : wfTx t) :
    cppGetlineSplit ',' (serializeTx t)
      = [showInt t.id, showAmount t.amount, showInt (typeCode t.type), t.category,
         showDate t.date, t.currency_, t.description, tagsField t.tags_] := by
  obtain ⟨_, _, hcat, _, _, _, hcur2, _, _, hdesc, _, _, htags, _, _, _⟩ := h
  unfold serializeTx
  apply cppGetlineSplit_join (by simp)
  · intro f hf
    simp only [List.mem_cons, List.mem_singleton] at hf
    rcases hf with rfl | rfl | rfl | rfl | rfl | rfl | rfl | rfl | hfalse
    · exact comma_not_mem_showInt t.id
    · exact comma_not_mem_showAmount t.amount
    · exact comma_not_mem_showInt (typeCode t.type)
    · exact hcat
    · exact comma_not_mem_showDate t.date
    · exact hcur2
    · exact hdesc
    · exact comma_not_mem_tagsField (fun tg htg => (htags tg htg).2.1)
    · exact absurd hfalse (List.not_mem_nil f)
  · intro lf hlf
    have h8 : ([showInt t.id, showAmount t.amount, showInt (typeCode t.type), t.category,
        showDate t.date, t.currency_, t.description, tagsField t.tags_] : List Str).getLast?
        = some (tagsField t.tags_) := rfl
    rw [h8] at hlf
    cases Option.some.inj hlf
    exact tagsField_ne_nil (fun tg htg => (htags tg htg).1)

/-- Parsing a saved transaction line recovers the transaction. -/
theorem parseTxLine_serializeTx {t : Transaction} (h : wfTx t) :
    parseTxLine (serializeTx t) = some t := by
  have hfields := fields_of_serializeTx h
  obtain ⟨hid, hamt, hcat, hcatn, hdate, hcur1, hcur2, hcurn, hcurtrim,
    hdesc, hdescn, hdesctrim, htags, htlen, htnd, htdash⟩ := h
  simp only [parseTxLine]
  rw [hfields]
  by_cases htag0 : t.tags_ = []
  · simp [stoiModel_showInt, stod_showAmount hamt, parseDate_showDate t.date hdate,
      typeOfCode_typeCode, hcurtrim, hcur1, hdesctrim, htag0, tagsField]
    rw [← htag0]
  · have htagsne : ∀ tg ∈ t.tags_, tg ≠ [] := fun tg htg => (htags tg htg).1
    have hjoin_ne : tagsField t.tags_ ≠ ['-'] := by
      intro hcontra
      unfold tagsField at hcontra
      rw [if_neg htag0] at hcontra
      exact htdash (join_strings_eq_dash htag0 htagsne hcontra)
    have hsplitTags : cppGetlineSplit ';' (tagsField t.tags_) = t.tags_ := by
      unfold tagsField
      rw [if_neg htag0]
      refine cppGetlineSplit_join htag0 (fun tg htg => (htags tg htg).2.2.1) ?_
      intro lf hlf
      rw [List.getLast?_eq_getLast _ htag0] at hlf
      cases Option.some.inj hlf
      exact (htags _ (List.getLast_mem htag0)).1
    have hloop : addTagsLoop [] t.tags_ = some t.tags_ := by
      have hres := addTagsLoop_ok t.tags_ [] (by simpa using htnd) (by simpa using htlen)
        htagsne
      simpa using hres
    simp [stoiModel_showInt, stod_showAmount hamt, parseDate_showDate t.date hdate,
      typeOfCode_typeCode, hcurtrim, hcur1, hdesctrim, hjoin_ne, hsplitTags, hloop]

/-! ### Codec lemmas: the load loop -/

theorem lineObservedId_serializeTx {t : Transaction} (h : wfTx t) :
    lineObservedId (serializeTx t) = some t.id := by
  simp only [lineObservedId]
  rw [fields_of_serializeTx h]
  simp [stoiModel_showInt]

theorem showInt_ne_nil (i : Int) : showInt i ≠ [] := by
  cases i with
  | ofNat n => exact showNat_ne_nil n
  | negSucc n => simp [showInt]

theorem serializeTx_ne_nil (t : Transaction) : serializeTx t ≠ [] := by
  have hsh : serializeTx t = showInt t.id ++ ',' ::
      join_strings [showAmount t.amount, showInt (typeCode t.type), t.category,
        showDate t.date, t.currency_, t.description, tagsField t.tags_] ',' := rfl
  rw [hsh]
  simp

theorem starts_with_append (pre rest : Str) : starts_with (pre ++ rest) pre = true := by
  induction pre with
  | nil => cases rest <;> rfl
  | cons c cs ih => simp [starts_with, ih]

theorem showInt_head (i : Int) :
    ∃ c, (showInt i).head? = some c ∧ (isDigitCh c = true ∨ c = '-') := by
  cases i with
  | ofNat n =>
    obtain ⟨c, h1, h2⟩ := showNat_head_digit n
    exact ⟨c, h1, Or.inl h2⟩
  | negSucc n => exact ⟨'-', rfl, Or.inr rfl⟩

theorem serializeTx_not_header (t : Transaction) :
    starts_with (serializeTx t) ("[Account:".toList) = false := by
  obtain ⟨c, hc1, hc2⟩ := showInt_head t.id
  have hne : c ≠ '[' := by
    rcases hc2 with h | h
    · exact (digit_props h).2.2.2.2.1
    · rw [h]; decide
  have hsh : serializeTx t = showInt t.id ++ ',' ::
      join_strings [showAmount t.amount, showInt (typeCode t.type), t.category,
        showDate t.date, t.currency_, t.description, tagsField t.tags_] ',' := rfl
  have hh : (serializeTx t).head? = some c := by
    rw [hsh, head?_append_of_ne_nil (showInt_ne_nil t.id), hc1]
  cases hs : serializeTx t with
  | nil => exact absurd hs (serializeTx_ne_nil t)
  | cons x xs =>
    rw [hs] at hh
    cases Option.some.inj hh
    show starts_with (c :: xs) ('[' :: "Account:".toList) = false
    simp [starts_with, hne]

theorem lookupA_append (m m2 : List (Str × Account)) (k : Str) :
    lookupA (m ++ m2) k =
      (match lookupA m k with
       | some v => some v
       | none => lookupA m2 k) := by
  induction m with
  | nil => simp [lookupA]
  | cons p rest ih =>
    by_cases hp : p.1 = k
    · simp [lookupA, hp]
    · simpa [lookupA, hp] using ih

theorem mapAddTx_of_lookup {m : List (Str × Account)} {nm : Str} {a : Account}
    (h : lookupA m nm = some a) (t : Transaction) :
    mapAddTx m nm t = mapReplace m nm (tryAddTx a t) := by
  induction m with
  | nil => simp [lookupA] at h
  | cons p rest ih =>
    obtain ⟨k, v⟩ := p
    by_cases hp : k = nm
    · simp only [lookupA, if_pos hp] at h
      cases Option.some.inj h
      simp [mapAddTx, mapReplace, hp]
    · simp only [lookupA, if_neg hp] at h
      simp [mapAddTx, mapReplace, hp, ih h]

theorem lookupA_mapReplace_self {m : List (Str × Account)} {nm : Str} {x a' : Account}
    (h : lookupA m nm = some x) :
    lookupA (mapReplace m nm a') nm = some a' := by
  induction m with
  | nil => simp [lookupA] at h
  | cons p rest ih =>
    obtain ⟨k, v⟩ := p
    by_cases hp : k = nm
    · simp [mapReplace, lookupA, hp]
    · simp only [lookupA, if_neg hp] at h
      simp [mapReplace, lookupA, hp, ih h]

theorem lookupA_mapReplace_other {m : List (Str × Account)} {nm k : Str} {a' : Account}
    (h : k ≠ nm) :
    lookupA (mapReplace m nm a') k = lookupA m k := by
  induction m with
  | nil => simp [mapReplace]
  | cons p rest ih =>
    obtain ⟨n, v⟩ := p
    by_cases hp : n = nm
    · subst hp
      have hnk : n ≠ k := fun hc => h hc.symm
      simp [mapReplace, lookupA, hnk]
    · simp [mapReplace, lookupA, hp, ih]

theorem mapReplace_mapReplace (m : List (Str × Account)) (nm : Str) (a b : Account) :
    mapReplace (mapReplace m nm a) nm b = mapReplace m nm b := by
  induction m with
  | nil => simp [mapReplace]
  | cons p rest ih =>
    obtain ⟨k, v⟩ := p
    by_cases hp : k = nm
    · simp [mapReplace, hp]
    · simp [mapReplace, hp, ih]

theorem mapReplace_self {m : List (Str × Account)} {nm : Str} {a : Account}
    (h : lookupA m nm = some a) :
    mapReplace m nm a = m := by
  induction m with
  | nil => simp [mapReplace]
  | cons p rest ih =>
    obtain ⟨k, v⟩ := p
    by_cases hp : k = nm
    · simp only [lookupA, if_pos hp] at h
      cases Option.some.inj h
      simp [mapReplace, hp]
    · simp only [lookupA, if_neg hp] at h
      simp [mapReplace, hp, ih h]

theorem tryAddTx_fresh {a : Account} {t : Transaction}
    (h : t.id ∉ a.transactions.map Transaction.id) :
    tryAddTx a t =
      { a with
        transactions := a.transactions ++ [t]
        balance := a.balance + t.get_signed_amount } := by
  have hany : (a.transactions.any (fun ex => ex.id == t.id)) = false := by
    rw [List.any_eq_false]
    intro x hx
    simp only [beq_iff_eq]
    intro hceq
    exact h (hceq ▸ List.mem_map_of_mem Transaction.id hx)
  simp [tryAddTx, Account.addTransaction, hany]

theorem le_foldMax_init (l : List Int) : ∀ m : Int, m ≤ foldMax m l := by
  induction l with
  | nil => intro m; simp [foldMax]
  | cons i rest ih =>
    intro m
    show m ≤ foldMax (if m < i then i else m) rest
    by_cases hm : m < i
    · calc m ≤ i := hm.le
      _ ≤ foldMax i rest := by simpa [hm] using ih i
      _ = foldMax (if m < i then i else m) rest := by rw [if_pos hm]
    · simpa [hm] using ih m

theorem le_foldMax_mem {l : List Int} {i : Int} (h : i ∈ l) : ∀ m : Int, i ≤ foldMax m l := by
  induction l with
  | nil => simp at h
  | cons j rest ih =>
    intro m
    rcases List.mem_cons.mp h with rfl | h
    · show i ≤ foldMax (if m < i then i else m) rest
      by_cases hm : m < i
      · simpa [hm] using le_foldMax_init rest i
      · calc i ≤ m := not_lt.mp hm
        _ ≤ foldMax m rest := le_foldMax_init rest m
        _ = foldMax (if m < i then i else m) rest := by rw [if_neg hm]
    · exact ih h _

theorem foldMax_append (a b : List Int) (m : Int) :
    foldMax m (a ++ b) = foldMax (foldMax m a) b := by
  simp [foldMax, List.foldl_append]

theorem extractHeaderName_headerLine {nm : Str} (hnm2 : ']' ∉ nm) :
    extractHeaderName (headerLine nm) = some nm := by
  unfold extractHeaderName headerLine
  have hdrop : (("[Account:".toList ++ (nm ++ [']']))).drop 9 = nm ++ [']'] := by
    have h9 : (9 : Nat) = ("[Account:".toList).length := rfl
    rw [h9, List.drop_left]
  rw [List.append_assoc, hdrop]
  rw [if_pos (by simp)]
  congr 1
  have htw := @takeWhile_append_all (fun c => !(c == ']')) nm [']']
    (fun c hc => by
      simp only [Bool.not_eq_true']
      exact beq_eq_false_iff_ne.mpr (fun hceq => hnm2 (hceq ▸ hc)))
    (fun y hy => by cases Option.some.inj hy; simp)
  exact htw.1

theorem loadLine_header {st : LoadState} {nm : Str} (hnm1 : nm ≠ []) (hnm2 : ']' ∉ nm) :
    loadLine st (headerLine nm) =
      { st with
        currentAccountName := nm
        accounts :=
          (match lookupA st.accounts nm with
           | some _ => st.accounts
           | none => st.accounts ++ [(nm, { name := nm })]) } := by
  have hne : (headerLine nm = []) = False := by
    simp only [eq_iff_iff, iff_false]
    simp [headerLine]
  have hsw : starts_with (headerLine nm) ("[Account:".toList) = true := by
    unfold headerLine
    exact starts_with_append ("[Account:".toList) (nm ++ [']'])
  simp only [loadLine, hne, if_false, hsw, if_true, extractHeaderName_headerLine hnm2]

theorem loadLine_tx {st : LoadState} {t : Transaction} (h : wfTx t) :
    loadLine st (serializeTx t) =
      { st with
        next_id := st.next_id + 1
        max_id := if st.max_id < t.id then t.id else st.max_id
        accounts := mapAddTx st.accounts st.currentAccountName t } := by
  have hne : (serializeTx t = []) = False := by
    simp only [eq_iff_iff, iff_false]
    exact serializeTx_ne_nil t
  simp only [loadLine, hne, if_false]
  rw [serializeTx_not_header t]
  simp only [Bool.false_eq_true, if_false, lineObservedId_serializeTx h,
    parseTxLine_serializeTx h]

/-- Folding the loader over the serialized transaction lines of one account:
each line appends its transaction to the current account, accumulates the
signed balance, bumps the id counter, and tracks the id high-water mark. -/
theorem foldl_loadLine_txs :
    ∀ (txs : List Transaction) (st : LoadState) (acc : Account),
      (∀ t ∈ txs, wfTx t) →
      lookupA st.accounts st.currentAccountName = some acc →
      ((acc.transactions ++ txs).map Transaction.id).Nodup →
      (txs.map serializeTx).foldl loadLine st =
        { accounts := mapReplace st.accounts st.currentAccountName
            { acc with
              transactions := acc.transactions ++ txs
              balance := acc.balance + sumSigned txs }
          currentAccountName := st.currentAccountName
          max_id := foldMax st.max_id (txs.map Transaction.id)
          next_id := st.next_id + txs.length } := by
  intro txs
  induction txs with
  | nil =>
    intro st acc hwf hlook hnd
    have hstruct : ({ acc with
        transactions := acc.transactions ++ ([] : List Transaction)
        balance := acc.balance + sumSigned [] } : Account) = acc := by
      have h1 : acc.transactions ++ ([] : List Transaction) = acc.transactions := by simp
      have h2 : acc.balance + sumSigned [] = acc.balance := by simp [sumSigned]
      rw [h1, h2]
    simp only [List.map_nil, List.foldl_nil, List.length_nil, Nat.cast_zero, add_zero,
      foldMax]
    rw [hstruct, mapReplace_self hlook]
  | cons t rest ih =>
    intro st acc hwf hlook hnd
    have hwt : wfTx t := hwf t (List.mem_cons_self t rest)
    have hwrest : ∀ x ∈ rest, wfTx x := fun x hx => hwf x (List.mem_cons_of_mem t hx)
    have hfresh : t.id ∉ acc.transactions.map Transaction.id := by
      intro hin
      have hperm : ((acc.transactions ++ t :: rest).map Transaction.id)
          = acc.transactions.map Transaction.id ++ t.id :: rest.map Transaction.id := by
        simp
      rw [hperm] at hnd
      have hdisj := (List.nodup_append.mp hnd).2.2
      exact hdisj hin (List.mem_cons_self t.id _)
    have hlook2 : lookupA
        (mapAddTx st.accounts st.currentAccountName t) st.currentAccountName
        = some { acc with
            transactions := acc.transactions ++ [t]
            balance := acc.balance + t.get_signed_amount } := by
      rw [mapAddTx_of_lookup hlook, tryAddTx_fresh hfresh]
      exact lookupA_mapReplace_self hlook
    have hnd2 : ((({ acc with
        transactions := acc.transactions ++ [t]
        balance := acc.balance + t.get_signed_amount } : Account).transactions
          ++ rest).map Transaction.id).Nodup := by
      have hasc : (acc.transactions ++ [t]) ++ rest = acc.transactions ++ t :: rest := by
        simp
      simpa [hasc] using hnd
    simp only [List.map_cons, List.foldl_cons]
    rw [loadLine_tx hwt]
    have hres := ih
      ({ st with
         next_id := st.next_id + 1
         max_id := if st.max_id < t.id then t.id else st.max_id
         accounts := mapAddTx st.accounts st.currentAccountName t })
      ({ acc with
         transactions := acc.transactions ++ [t]
         balance := acc.balance + t.get_signed_amount })
      hwrest (by exact hlook2) (by exact hnd2)
    rw [hres]
    dsimp only
    rw [mapAddTx_of_lookup hlook, tryAddTx_fresh hfresh]
    rw [mapReplace_mapReplace]
    have hbal : (acc.balance + t.get_signed_amount) + sumSigned rest
        = acc.balance + sumSigned (t :: rest) := by
      simp [sumSigned]
      ring
    have htx : (acc.transactions ++ [t]) ++ rest = acc.transactions ++ t :: rest := by
      simp
    simp only [htx, hbal]
    simp only [LoadState.mk.injEq]
    refine ⟨trivial, trivial, ?_, ?_⟩
    · simp [foldMax]
    · simp only [List.length_cons]
      push_cast
      ring

theorem lookupA_insertBase {st : List (Str × Account)} {nm : Str}
    (hfresh : lookupA st nm = none ∨ lookupA st nm = some { name := nm }) :
    lookupA
      (match lookupA st nm with
       | some _ => st
       | none => st ++ [(nm, { name := nm })]) nm
      = some ({ name := nm } : Account) := by
  rcases hfresh with h | h
  · rw [h]
    rw [lookupA_append, h]
    simp [lookupA]
  · rw [h]
    exact h

/-- Folding the loader over one whole account block (header plus transaction
lines): the account named by the header — created empty if absent — ends
holding exactly the block's transactions. -/
theorem foldl_loadLine_block (nm : Str) (a : Account) (st : LoadState)
    (hnm1 : nm ≠ []) (hnm2 : ']' ∉ nm)
    (hwf : ∀ t ∈ a.transactions, wfTx t)
    (hnd : (a.transactions.map Transaction.id).Nodup)
    (hfresh : lookupA st.accounts nm = none ∨
      lookupA st.accounts nm = some { name := nm }) :
    (headerLine nm :: a.transactions.map serializeTx).foldl loadLine st =
      { accounts := mapReplace
          (match lookupA st.accounts nm with
           | some _ => st.accounts
           | none => st.accounts ++ [(nm, { name := nm })]) nm
          { name := nm
            balance := sumSigned a.transactions
            transactions := a.transactions }
        currentAccountName := nm
        max_id := foldMax st.max_id (a.transactions.map Transaction.id)
        next_id := st.next_id + a.transactions.length } := by
  rw [List.foldl_cons, loadLine_header hnm1 hnm2]
  have hlook := @lookupA_insertBase st.accounts nm hfresh
  have hres := foldl_loadLine_txs a.transactions
    ({ st with
       currentAccountName := nm
       accounts :=
         (match lookupA st.accounts nm with
          | some _ => st.accounts
          | none => st.accounts ++ [(nm, { name := nm })]) })
    ({ name := nm } : Account)
    hwf (by exact hlook) (by simpa using hnd)
  rw [hres]
  dsimp only
  simp only [List.nil_append, zero_add]

/-- After a block, all other keys are untouched. -/
theorem block_frame {st : LoadState} {nm k : Str} {a' : Account} (hk : k ≠ nm) :
    lookupA (mapReplace
      (match lookupA st.accounts nm with
       | some _ => st.accounts
       | none => st.accounts ++ [(nm, { name := nm })]) nm a') k
      = lookupA st.accounts k := by
  rw [lookupA_mapReplace_other hk]
  cases h : lookupA st.accounts nm with
  | some v => rfl
  | none =>
    rw [lookupA_append]
    cases h2 : lookupA st.accounts k with
    | some v => rfl
    | none => simp [lookupA, Ne.symm hk]

/-- Restated block lemma, with the result packaged as `blockResult`. -/
theorem foldl_loadLine_block2 (nm : Str) (a : Account) (st : LoadState)
    (hnm1 : nm ≠ []) (hnm2 : ']' ∉ nm)
    (hwf : ∀ t ∈ a.transactions, wfTx t)
    (hnd : (a.transactions.map Transaction.id).Nodup)
    (hfresh : lookupA st.accounts nm = none ∨
      lookupA st.accounts nm = some { name := nm }) :
    (headerLine nm :: a.transactions.map serializeTx).foldl loadLine st =
      blockResult nm a st :=
  foldl_loadLine_block nm a st hnm1 hnm2 hwf hnd hfresh

/-- Folding the loader over a whole saved registry. -/
theorem foldl_loadLine_blocks :
    ∀ (regs : List (Str × Account)) (st : LoadState),
      (∀ p ∈ regs, wfEntry p) →
      (regs.map Prod.fst).Nodup →
      (∀ p ∈ regs, lookupA st.accounts p.1 = none ∨
        lookupA st.accounts p.1 = some { name := p.1 }) →
      (∀ p ∈ regs,
        lookupA ((saveLines regs).foldl loadLine st).accounts p.1 =
          some { name := p.1
                 balance := sumSigned p.2.transactions
                 transactions := p.2.transactions }) ∧
      (∀ k, k ∉ regs.map Prod.fst →
        lookupA ((saveLines regs).foldl loadLine st).accounts k = lookupA st.accounts k) ∧
      ((saveLines regs).foldl loadLine st).max_id = foldMax st.max_id (regIds regs) ∧
      ((saveLines regs).foldl loadLine st).next_id
        = st.next_id + ((regs.map (fun p => p.2.transactions.length)).sum : Nat) := by
  intro regs
  induction regs with
  | nil =>
    intro st _ _ _
    refine ⟨by simp, by simp [saveLines], ?_, ?_⟩
    · simp [saveLines, regIds, foldMax]
    · simp [saveLines]
  | cons p rest ih =>
    intro st hwf hnd hpre
    obtain ⟨nm, a⟩ := p
    have hwfp := hwf (nm, a) (List.mem_cons_self _ _)
    obtain ⟨hnm1, hnm2, _, hwtx, hidnd⟩ := hwfp
    have hsave : saveLines ((nm, a) :: rest)
        = (headerLine nm :: a.transactions.map serializeTx) ++ saveLines rest := by
      simp [saveLines]
    have hnames : nm ∉ rest.map Prod.fst := by
      have := hnd
      simp only [List.map_cons, List.nodup_cons] at this
      exact this.1
    have hndrest : (rest.map Prod.fst).Nodup := by
      have := hnd
      simp only [List.map_cons, List.nodup_cons] at this
      exact this.2
    have hblock := foldl_loadLine_block2 nm a st hnm1 hnm2 hwtx hidnd
      (hpre (nm, a) (List.mem_cons_self _ _))
    rw [hsave, List.foldl_append, hblock]
    have hframe1 : ∀ k, k ≠ nm →
        lookupA (blockResult nm a st).accounts k = lookupA st.accounts k := by
      intro k hk
      simp only [blockResult]
      exact block_frame hk
    have hself : lookupA (blockResult nm a st).accounts nm
        = some { name := nm
                 balance := sumSigned a.transactions
                 transactions := a.transactions } := by
      simp only [blockResult]
      exact lookupA_mapReplace_self
        (lookupA_insertBase (hpre (nm, a) (List.mem_cons_self _ _)))
    have hih := ih (blockResult nm a st)
      (fun q hq => hwf q (List.mem_cons_of_mem _ hq))
      hndrest
      (fun q hq => by
        have hqne : q.1 ≠ nm := by
          intro hc
          exact hnames (hc ▸ List.mem_map_of_mem Prod.fst hq)
        rw [hframe1 q.1 hqne]
        exact hpre q (List.mem_cons_of_mem _ hq))
    refine ⟨?_, ?_, ?_, ?_⟩
    · intro q hq
      rcases List.mem_cons.mp hq with rfl | hq
      · rw [hih.2.1 (nm, a).1 hnames]
        exact hself
      · exact hih.1 q hq
    · intro k hk
      simp only [List.map_cons, List.mem_cons] at hk
      push_neg at hk
      rw [hih.2.1 k hk.2]
      exact hframe1 k hk.1
    · rw [hih.2.2.1]
      have hbm : (blockResult nm a st).max_id
          = foldMax st.max_id (a.transactions.map Transaction.id) := rfl
      rw [hbm]
      have hreg : regIds ((nm, a) :: rest) = a.transactions.map Transaction.id ++ regIds rest := by
        simp [regIds]
      rw [hreg, foldMax_append]
    · rw [hih.2.2.2]
      have hbn : (blockResult nm a st).next_id
          = st.next_id + a.transactions.length := rfl
      rw [hbn]
      simp only [List.map_cons, List.sum_cons]
      push_cast
      ring

/-- `recalculateBalance` only rewrites the balance field. -/
theorem recalculateBalance_tx {a a2 : Account} {rates : RatesMap}
    (h : a.recalculateBalance rates = .ok a2) :
    a2.name = a.name ∧ a2.transactions = a.transactions := by
  unfold Account.recalculateBalance at h
  cases hs : sumInRub rates a.transactions with
  | ok s =>
    rw [hs] at h
    injection h with h2
    subst h2
    exact ⟨rfl, rfl⟩
  | error e =>
    rw [hs] at h
    cases h

/-- The final recalculation pass of `loadData` never changes which
transactions an account holds. -/
theorem recalcLoop_lookup (rates : RatesMap) :
    ∀ (m m2 : List (Str × Account)), recalcLoop rates m = .ok m2 →
      ∀ k, (lookupA m2 k).map Account.transactions
         = (lookupA m k).map Account.transactions := by
  intro m
  induction m with
  | nil =>
    intro m2 h k
    unfold recalcLoop at h
    injection h with h2
    subst h2
    rfl
  | cons p rest ih =>
    intro m2 h k
    obtain ⟨n, a⟩ := p
    unfold recalcLoop at h
    cases hr : a.recalculateBalance rates with
    | error e => rw [hr] at h; cases h
    | ok a2 =>
      rw [hr] at h
      cases hrest : recalcLoop rates rest with
      | error e => rw [hrest] at h; cases h
      | ok r =>
        rw [hrest] at h
        injection h with h2
        subst h2
        by_cases hk : n = k
        · simp only [lookupA, if_pos hk]
          simp [(recalculateBalance_tx hr).2]
        · simp only [lookupA, if_neg hk]
          exact ih r hrest k

/-- `loadData` splits into the line loop, the id reset, and a
transaction-preserving recalculation pass. -/
theorem loadData_split (lines : List Str) (next_id0 : Int) (rates : RatesMap) (k : Str) :
    (lookupA (loadData lines next_id0 rates).accounts k).map Account.transactions
      = (lookupA ((lines.foldl loadLine (loadInit next_id0)).accounts) k).map
          Account.transactions ∧
    (loadData lines next_id0 rates).next_id
      = (if 0 < (lines.foldl loadLine (loadInit next_id0)).max_id
         then (lines.foldl loadLine (loadInit next_id0)).max_id + 1
         else (lines.foldl loadLine (loadInit next_id0)).next_id) := by
  simp only [loadData]
  cases hrc : recalcLoop rates ((lines.foldl loadLine (loadInit next_id0)).accounts) with
  | ok accs2 => exact ⟨recalcLoop_lookup rates _ accs2 hrc k, rfl⟩
  | error e => exact ⟨rfl, rfl⟩

/-- C2: Round trip of the flat-file codec.  For a well-formed registry
(distinct nonempty account names without `']'` or newline; per transaction a
positive id, an amount in the exactly-printable regime, no delimiter or
newline characters inside fields, already-trimmed currency and description,
a valid date, and a reproducible tag list with per-account unique ids),
saving with `saveLines` and loading with `loadData` reproduces every
account's exact transaction list — hence the same
(id, amount, type, category, date, currency, description, tags) tuples, as
these are precisely the fields of `Transaction` — and the loaded `next_id`
exceeds every loaded id, being exactly `max(observed ids) + 1` whenever at
least one transaction was saved. -/
theorem C2_roundtrip (regs : List (Str × Account)) (nid0 : Int) (rates : RatesMap)
    (hwf : wfRegistry regs) :
    (∀ p ∈ regs,
      (lookupA (loadData (saveLines regs) nid0 rates).accounts p.1).map Account.transactions
        = some p.2.transactions) ∧
    (∀ p ∈ regs, ∀ t ∈ p.2.transactions,
      t.id < (loadData (saveLines regs) nid0 rates).next_id) ∧
    (regIds regs ≠ [] →
      (loadData (saveLines regs) nid0 rates).next_id = foldMax 0 (regIds regs) + 1) := by
  obtain ⟨hnd, hentries⟩ := hwf
  have hpre : ∀ p ∈ regs, lookupA (loadInit nid0).accounts p.1 = none ∨
      lookupA (loadInit nid0).accounts p.1 = some { name := p.1 } := by
    intro p hp
    by_cases hd : defaultName = p.1
    · right
      simp [loadInit, lookupA, hd]
    · left
      simp [loadInit, lookupA, hd]
  have hblocks := foldl_loadLine_blocks regs (loadInit nid0) hentries hnd hpre
  have hmax : ((saveLines regs).foldl loadLine (loadInit nid0)).max_id
      = foldMax 0 (regIds regs) := hblocks.2.2.1
  have hposmax : ∀ i ∈ regIds regs, 0 < i := by
    intro i hi
    simp only [regIds, List.mem_join, List.mem_map] at hi
    obtain ⟨l, ⟨p, hp, rfl⟩, hil⟩ := hi
    obtain ⟨t, ht, rfl⟩ := List.mem_map.mp hil
    exact ((hentries p hp).2.2.2.1 t ht).1
  refine ⟨?_, ?_, ?_⟩
  · intro p hp
    rw [(loadData_split (saveLines regs) nid0 rates p.1).1, hblocks.1 p hp]
    rfl
  · intro p hp t ht
    have hid : t.id ∈ regIds regs := by
      simp only [regIds, List.mem_join, List.mem_map]
      exact ⟨p.2.transactions.map Transaction.id, ⟨p, hp, rfl⟩,
        List.mem_map.mpr ⟨t, ht, rfl⟩⟩
    have hle : t.id ≤ foldMax 0 (regIds regs) := le_foldMax_mem hid 0
    have hpos : 0 < t.id := hposmax t.id hid
    rw [(loadData_split (saveLines regs) nid0 rates p.1).2, hmax,
      if_pos (lt_of_lt_of_le hpos hle)]
    omega
  · intro hne
    obtain ⟨i, hi⟩ := List.exists_mem_of_ne_nil (regIds regs) hne
    have h0 : 0 < foldMax 0 (regIds regs) :=
      lt_of_lt_of_le (hposmax i hi) (le_foldMax_mem hi 0)
    rw [(loadData_split (saveLines regs) nid0 rates []).2, hmax, if_pos h0]

/-- C2 counterexample: without the well-formedness conditions the round trip
fails — a `','` inside a description splits the record at load time, so the
reloaded account stores description `"a"` (and a spurious tag) instead of
`"a,b"`. -/
theorem C2_counterexample :
    (lookupA (loadData (saveLines regComma) 1 rubOnly).accounts ("B".toList)).map
        (fun a => a.transactions.map Transaction.description)
      ≠ some ([txComma].map Transaction.description) := by
  have hnum : ((5:ℚ) * 100).num = 500 := by norm_num
  have hshow : showAmount 5 = ['5'] := by
    simp only [showAmount]
    rw [hnum]
    decide
  have htx : serializeTx txComma = "1,5,0,Pay,2023 5 15,RUB,a,b,-".toList := by
    simp only [serializeTx, txComma]
    rw [hshow]
    decide
  have hsl : saveLines regComma = [headerLine ("B".toList), serializeTx txComma] := rfl
  rw [hsl, htx]
  decide

/-- C2 witness: the round-trip theorem applied to the one-account registry
`regB`: the transaction list returns intact and the id counter lands on 2. -/
theorem C2_witness :
    (lookupA (loadData (saveLines regB) 1 rubOnly).accounts ("B".toList)).map
        Account.transactions = some [txRub100] ∧
    (loadData (saveLines regB) 1 rubOnly).next_id = foldMax 0 (regIds regB) + 1 := by
  have hwf : wfRegistry regB := by
    constructor
    · decide
    · intro p hp
      simp only [regB, List.mem_singleton] at hp
      subst hp
      refine ⟨by decide, by decide, by decide, ?_, by decide⟩
      intro t ht
      simp only [accB, List.mem_singleton] at ht
      subst ht
      refine ⟨by decide,
        ⟨by norm_num [txRub100], by norm_num [txRub100], by norm_num [txRub100]⟩,
        ?_, ?_, ?_, ?_, ?_, ?_, ?_, ?_, ?_, ?_, ?_, ?_, ?_, ?_⟩ <;> decide
  have h := C2_roundtrip regB 1 rubOnly hwf
  refine ⟨?_, h.2.2 (by decide)⟩
  have h1 := h.1 ("B".toList, accB) (by simp [regB])
  simpa [accB] using h1

end MoneyKeeper
